import Mathlib

/-!
Verification of the hexwarden encryption pipeline.

This file embeds the core data transformations of the hexwarden repository
(PKCS#7 padding, Reed-Solomon shard layout, AES-GCM chunk pipeline, the
128-byte file header, the gzip decompression bound, salt validation and the
reorder buffer of the streaming writer) as executable Lean definitions and
proves the specified properties about them.

Bytes are modelled as `Fin 256`.  Cryptographic primitives that live in the
Go standard library or in third party packages (AES-GCM sealing/opening, gzip
deflate/inflate, SHA-256, HMAC, CRC32, the Reed-Solomon parity arithmetic)
are not part of the repository source; they enter the embedding as explicit
function parameters, with the properties the proofs need stated as
hypotheses, so every theorem states exactly which library facts it relies
on.  Everything written in the repository itself (control flow, length
arithmetic, slicing, validation, buffering) is embedded concretely.
-/

namespace Hexwarden

/-- A byte, as stored in a Go `[]byte`. -/
abbrev Byte := Fin 256

/-- Go's `byte(n)` conversion: truncation modulo 256. -/
def toByte (n : Nat) : Byte := ⟨n % 256, Nat.mod_lt _ (by norm_num)⟩

/-- `encoding/binary` big-endian serialisation of the low `w` bytes of `n`
(most significant byte first), as written by `PutUint32` / `PutUint64`. -/
def beBytes : Nat → Nat → List Byte
  | 0, _ => []
  | w + 1, n => beBytes w (n / 256) ++ [toByte n]

/-- `encoding/binary` big-endian deserialisation (`Uint32` / `Uint64`). -/
def beVal (l : List Byte) : Nat :=
  l.foldl (fun acc b => acc * 256 + b.val) 0

theorem length_beBytes (w n : Nat) : (beBytes w n).length = w := by
  induction w generalizing n with
  | zero => rfl
  | succ w ih => simp [beBytes, ih]

theorem beVal_append (l : List Byte) (b : Byte) :
    beVal (l ++ [b]) = beVal l * 256 + b.val := by
  simp [beVal, List.foldl_append]

theorem beVal_beBytes (w n : Nat) : beVal (beBytes w n) = n % 256 ^ w := by
  induction w generalizing n with
  | zero => simp [beBytes, beVal, Nat.mod_one]
  | succ w ih =>
    rw [beBytes, beVal_append, ih]
    calc n / 256 % 256 ^ w * 256 + (toByte n).val
        = n % 256 + 256 * (n / 256 % 256 ^ w) := by
          simp [toByte]; ring
      _ = n % (256 * 256 ^ w) := (Nat.mod_mul).symm
      _ = n % 256 ^ (w + 1) := by ring_nf

/-- Error kinds of the repository (`internal/constants/errors.go` and the
package-local error values). -/
inductive Err where
  | paddingFailed
  | unpaddingFailed
  | emptyPlaintext
  | emptyCiphertext
  | decryptionFailed
  | encodingFailed
  | decodingFailed
  | compressionFailed
  | decompressionFailed
  | invalidMagic
  | invalidHeaderSize
  | checksumMismatch
  | tampering
  | authFailure
  | integrityFailure
  | incompleteRead
  | chunkTooLarge
  | invalidSalt
  | weakSalt
  | emptyKey
  deriving DecidableEq, Repr

instance {e a : Type} [DecidableEq e] [DecidableEq a] : DecidableEq (Except e a)
  | .ok x, .ok y =>
    if h : x = y then .isTrue (by rw [h]) else
      .isFalse (by intro hc; cases hc; exact h rfl)
  | .error x, .error y =>
    if h : x = y then .isTrue (by rw [h]) else
      .isFalse (by intro hc; cases hc; exact h rfl)
  | .ok _, .error _ => .isFalse (by intro hc; cases hc)
  | .error _, .ok _ => .isFalse (by intro hc; cases hc)

/-! ## PKCS#7 padding (`internal/infrastructure/utils/padding.go`)

`constants.PaddingSize` itself lives in the (absent) `internal/constants`
package; its value 16 is fixed by ARCHITECTURE.md and by the sibling
processor generations which all construct the padder with block size 16. -/

def PaddingSize : Nat := 16

/-- `Padder.Pad`: appends `blockSize - len(data) % blockSize` copies of that
count, encoded as a byte.  (The Go nil-slice guard has no counterpart for a
Lean list; an empty input is padded like any other.) -/
def Padder.Pad (blockSize : Nat) (data : List Byte) : List Byte :=
  let padding := blockSize - data.length % blockSize
  data ++ List.replicate padding (toByte padding)

/-- `Padder.Unpad`: validates and strips PKCS#7 padding. -/
def Padder.Unpad (blockSize : Nat) (data : List Byte) : Except Err (List Byte) :=
  if data.length = 0 then .error .unpaddingFailed
  else if data.length % blockSize ≠ 0 then .error .unpaddingFailed
  else
    let padding := (data.getLast?.getD (toByte 0)).val
    if padding = 0 ∨ blockSize < padding then .error .unpaddingFailed
    else if data.length < padding then .error .unpaddingFailed
    else if (data.drop (data.length - padding)).all (fun b => b = toByte padding) then
      .ok (data.take (data.length - padding))
    else .error .unpaddingFailed

theorem pad_length (blockSize : Nat) (B : List Byte) :
    (Padder.Pad blockSize B).length = B.length + (blockSize - B.length % blockSize) := by
  simp [Padder.Pad]

theorem pad_unpad_aux (B : List Byte) :
    1 ≤ 16 - B.length % 16 ∧ 16 - B.length % 16 ≤ 16 ∧
    (B.length % 16 = 0 ↔ 16 - B.length % 16 = 16) ∧
    Padder.Pad 16 B =
      B ++ List.replicate (16 - B.length % 16) (toByte (16 - B.length % 16)) ∧
    Padder.Unpad 16 (Padder.Pad 16 B) = .ok B := by
  have hr : B.length % 16 < 16 := Nat.mod_lt _ (by norm_num)
  refine ⟨by omega, by omega, by omega, rfl, ?_⟩
  set p := 16 - B.length % 16 with hp
  have hpad : Padder.Pad 16 B = B ++ List.replicate p (toByte p) := rfl
  have hple : p ≤ 16 := by omega
  have hp1 : 1 ≤ p := by omega
  have hlen : (Padder.Pad 16 B).length = B.length + p := pad_length 16 B
  have hrep : List.replicate p (toByte p)
      = List.replicate (p - 1) (toByte p) ++ [toByte p] := by
    rw [← List.replicate_succ']
    congr 1
    omega
  have hlast : (B ++ List.replicate p (toByte p)).getLast? = some (toByte p) := by
    rw [hrep, ← List.append_assoc, List.getLast?_concat]
  have hval : (toByte p).val = p := by
    simp [toByte]; omega
  have hL : (B ++ List.replicate p (toByte p)).length = B.length + p := by simp
  have hne : ¬ (B.length + p = 0) := by omega
  have hmod : (B.length + p) % 16 = 0 := by omega
  have hc1 : ¬ (p = 0 ∨ 16 < p) := by omega
  have hc2 : ¬ (B.length + p < p) := by omega
  have hdrop : (B ++ List.replicate p (toByte p)).drop (B.length + p - p)
      = List.replicate p (toByte p) := by
    rw [show B.length + p - p = B.length by omega]
    exact List.drop_left B _
  have htake : (B ++ List.replicate p (toByte p)).take (B.length + p - p) = B := by
    rw [show B.length + p - p = B.length by omega]
    exact List.take_left B _
  rw [hpad]
  simp only [Padder.Unpad, hL, hlast, Option.getD_some, hval]
  rw [if_neg hne, if_neg (not_not_intro hmod), if_neg hc1, if_neg hc2,
    hdrop, htake]
  simp [List.all_eq_true, List.eq_of_mem_replicate]

/-- Claim C5: for every byte sequence `B`, `Pad` at block size 16 appends
`p = 16 - (|B| mod 16)` copies of the byte `p` (with `p = 16` exactly when
`|B|` is a multiple of 16), and `Unpad (Pad B) = B`. -/
theorem pkcs7_pad_unpad_roundtrip (B : List Byte) :
    1 ≤ 16 - B.length % 16 ∧ 16 - B.length % 16 ≤ 16 ∧
    (B.length % 16 = 0 ↔ 16 - B.length % 16 = 16) ∧
    Padder.Pad 16 B =
      B ++ List.replicate (16 - B.length % 16) (toByte (16 - B.length % 16)) ∧
    Padder.Unpad 16 (Padder.Pad 16 B) = .ok B :=
  pad_unpad_aux B

/-! ## Salt validation (`internal/header/header.go` `isWeakSalt`,
identical logic in `internal/infrastructure/crypto/kdf.go`) -/

def SaltSize : Nat := 32

/-- `bytes.Equal` / the local `bytesEqual` helper. -/
def bytesEqual (a b : List Byte) : Bool := a == b

/-- The pattern-repetition loop of `isWeakSalt`:
`for i := 4; i < len(salt); i += 4 { if !bytes.Equal(pattern, salt[i:min(i+4,len)]) { return false } }`. -/
def repeatsFrom (pattern salt : List Byte) (i : Nat) : Bool :=
  if _h : i < salt.length then
    if bytesEqual pattern ((salt.drop i).take 4) then repeatsFrom pattern salt (i + 4)
    else false
  else true
termination_by salt.length - i
decreasing_by omega

/-- `isWeakSalt`: rejects non-32-byte salts, all-zero salts, and salts whose
leading 4-byte pattern repeats across the whole span. -/
def isWeakSalt (salt : List Byte) : Bool :=
  if salt.length ≠ SaltSize then true
  else if salt.all (fun b => b = toByte 0) then true
  else if 4 ≤ salt.length then repeatsFrom (salt.take 4) salt 4
  else false

/-- `ValidateSalt` (`internal/infrastructure/crypto/kdf.go`). -/
def ValidateSalt (salt : List Byte) : Except Err Unit :=
  if salt.length ≠ SaltSize then .error .invalidSalt
  else if isWeakSalt salt then .error .weakSalt
  else .ok ()

theorem take4_eq_iff (salt : List Byte) (h : salt.length = 32) (i : Nat)
    (hi : i + 4 ≤ 32) :
    bytesEqual (salt.take 4) ((salt.drop i).take 4) = true ↔
      ∀ r, r < 4 → salt[i + r]? = salt[r]? := by
  have hlen4 : (salt.take 4).length = 4 := by simp [h]
  have hlend : ((salt.drop i).take 4).length = 4 := by simp [h]; omega
  constructor
  · intro heq r hr
    have heq' : salt.take 4 = (salt.drop i).take 4 := by
      simpa [bytesEqual] using heq
    have := congrArg (fun l => l[r]?) heq'
    simpa [List.getElem?_take_of_lt hr, List.getElem?_drop] using this.symm
  · intro hpt
    have heq' : salt.take 4 = (salt.drop i).take 4 := by
      apply List.ext_getElem?
      intro n
      by_cases hn : n < 4
      · rw [List.getElem?_take_of_lt hn, List.getElem?_take_of_lt hn,
          List.getElem?_drop]
        exact (hpt n hn).symm
      · rw [List.getElem?_eq_none (by omega), List.getElem?_eq_none (by omega)]
    simp [bytesEqual, heq']

theorem repeatsFrom_iff_aux (salt : List Byte) (h : salt.length = 32) :
    ∀ d i, 32 - i ≤ d → 4 ∣ i → 4 ≤ i →
    (repeatsFrom (salt.take 4) salt i = true ↔
      ∀ j, i ≤ j → j < 32 → salt[j]? = salt[j % 4]?) := by
  intro d
  induction d with
  | zero =>
    intro i hle _ _
    rw [repeatsFrom]
    simp only [h]
    rw [dif_neg (by omega)]
    constructor
    · intro _ j hj hj32
      omega
    · intro _
      rfl
  | succ d ih =>
    intro i hle hdvd hge
    by_cases hlt : i < 32
    · have hi4 : i + 4 ≤ 32 := by omega
      rw [repeatsFrom]
      rw [dif_pos (by omega)]
      by_cases hblk : bytesEqual (salt.take 4) ((salt.drop i).take 4) = true
      · rw [if_pos hblk]
        rw [ih (i + 4) (by omega) (by omega) (by omega)]
        have hblk' := (take4_eq_iff salt h i hi4).mp hblk
        constructor
        · intro hrest j hj hj32
          by_cases hjlo : j < i + 4
          · have hr : j - i < 4 := by omega
            have := hblk' (j - i) hr
            rw [show i + (j - i) = j by omega] at this
            rw [this]
            congr 1
            omega
          · exact hrest j (by omega) hj32
        · intro hall j hj hj32
          exact hall j (by omega) hj32
      · rw [if_neg hblk]
        simp only [Bool.false_eq_true, false_iff]
        intro hall
        apply hblk
        rw [take4_eq_iff salt h i hi4]
        intro r hr
        have := hall (i + r) (by omega) (by omega)
        rw [this]
        congr 1
        omega
    · rw [repeatsFrom]
      simp only [h]
      rw [dif_neg (by omega)]
      constructor
      · intro _ j hj hj32
        omega
      · intro _
        rfl

/-- Claim C9: a 32-byte salt is rejected as weak iff every byte is zero or
the salt is its first four bytes repeated across the whole 32-byte span;
every other 32-byte salt is accepted. -/
theorem isWeakSalt_iff (salt : List Byte) (h : salt.length = 32) :
    isWeakSalt salt = true ↔
      ((∀ b ∈ salt, b = 0) ∨ ∀ j, j < 32 → salt[j]? = salt[j % 4]?) := by
  rw [isWeakSalt]
  rw [if_neg (by simp [SaltSize, h])]
  by_cases hz : salt.all (fun b => b = toByte 0) = true
  · rw [if_pos hz]
    simp only [true_iff]
    left
    intro b hb
    have hb0 : b = toByte 0 := by simpa using (List.all_eq_true.mp hz) b hb
    rw [hb0]
    decide
  · rw [if_neg hz, if_pos (by omega)]
    rw [repeatsFrom_iff_aux salt h (32 - 4) 4 (by omega) (by omega) (by omega)]
    have hnz : ¬ (∀ b ∈ salt, b = 0) := by
      intro hall
      apply hz
      rw [List.all_eq_true]
      intro b hb
      have hb0 : b = 0 := hall b hb
      rw [hb0]
      decide
    constructor
    · intro hrep
      right
      intro j hj32
      by_cases hj4 : j < 4
      · rw [Nat.mod_eq_of_lt hj4]
      · exact hrep j (by omega) hj32
    · intro hor
      rcases hor with hallz | hrep
      · exact absurd hallz hnz
      · intro j hj hj32
        exact hrep j hj32

/-- Claim C9 witness: the characterisation applied to the concrete salt
`0,1,2,3` repeated eight times. -/
theorem isWeakSalt_iff_witness :
    ([0, 1, 2, 3, 0, 1, 2, 3, 0, 1, 2, 3, 0, 1, 2, 3,
      0, 1, 2, 3, 0, 1, 2, 3, 0, 1, 2, 3, 0, 1, 2, 3] : List Byte).length = 32 ∧
    (isWeakSalt [0, 1, 2, 3, 0, 1, 2, 3, 0, 1, 2, 3, 0, 1, 2, 3,
        0, 1, 2, 3, 0, 1, 2, 3, 0, 1, 2, 3, 0, 1, 2, 3] = true ↔
      ((∀ b ∈ ([0, 1, 2, 3, 0, 1, 2, 3, 0, 1, 2, 3, 0, 1, 2, 3,
          0, 1, 2, 3, 0, 1, 2, 3, 0, 1, 2, 3, 0, 1, 2, 3] : List Byte), b = 0) ∨
        ∀ j, j < 32 →
          ([0, 1, 2, 3, 0, 1, 2, 3, 0, 1, 2, 3, 0, 1, 2, 3,
            0, 1, 2, 3, 0, 1, 2, 3, 0, 1, 2, 3, 0, 1, 2, 3] : List Byte)[j]? =
          ([0, 1, 2, 3, 0, 1, 2, 3, 0, 1, 2, 3, 0, 1, 2, 3,
            0, 1, 2, 3, 0, 1, 2, 3, 0, 1, 2, 3, 0, 1, 2, 3] : List Byte)[j % 4]?)) :=
  ⟨by decide, isWeakSalt_iff _ (by decide)⟩

/-! ## Reed-Solomon encoding (`Encoder` in `src/unnamed/part_027`)

`constants.DataShards = 4` and `constants.ParityShards = 10` per
ARCHITECTURE.md; `constants.MaxDataLen` is modelled as the spec's 1 GiB
(the sibling `internal/encoding` generation uses `1 << 30` as well).
The Reed-Solomon parity arithmetic lives in the third-party
`klauspost/reedsolomon` package; it enters as the `parity` parameter.
`Reconstruct` rebuilds only missing (nil) shards and this embedding always
presents all `k+m` shards, where it is a no-op. -/

def DataShards : Nat := 4

def ParityShards : Nat := 10

def MaxDataLen : Nat := 2 ^ 30

structure Encoder where
  dataShards : Nat
  parityShards : Nat

def defaultEncoder : Encoder := ⟨DataShards, ParityShards⟩

/-- `shardSize := (len(data) + dataShards - 1) / dataShards`. -/
def Encoder.shardSizeOf (e : Encoder) (n : Nat) : Nat :=
  (n + e.dataShards - 1) / e.dataShards

/-- Shard `j` of `splitIntoShards`: a zero-initialised buffer of `s` bytes
receiving the data bytes `i` with `i / s = j` at positions `i % s`, i.e.
`data[j*s : j*s+s]` zero-extended; parity shards (`j ≥ k`) stay zero. -/
def shardAt (s : Nat) (data : List Byte) (j : Nat) : List Byte :=
  let part := (data.drop (j * s)).take s
  part ++ List.replicate (s - part.length) 0

def Encoder.splitIntoShards (e : Encoder) (data : List Byte) : List (List Byte) :=
  (List.range (e.dataShards + e.parityShards)).map
    (shardAt (e.shardSizeOf data.length) data)

/-- `combineShards` copies each shard into a `len(shards[0])`-sized slot of a
zero-initialised buffer (`copy` truncates at the slot for the uniform-length
shard lists produced by `splitIntoShards` and the parity computation, the
only lists this development feeds it). -/
def combineShards : List (List Byte) → List Byte
  | [] => []
  | s0 :: rest =>
    ((s0 :: rest).map
      (fun sh => sh.take s0.length ++ List.replicate (s0.length - sh.length) 0)).flatten

/-- `Encoder.Encode`: validate size, split into shards, let the library fill
the parity shards from the data shards, concatenate. -/
def Encoder.Encode (parity : List (List Byte) → List (List Byte)) (e : Encoder)
    (data : List Byte) : Except Err (List Byte) :=
  if data.length = 0 ∨ MaxDataLen < data.length then .error .encodingFailed
  else
    let shards := e.splitIntoShards data
    .ok (combineShards (shards.take e.dataShards ++ parity (shards.take e.dataShards)))

def Encoder.splitEncodedData (e : Encoder) (data : List Byte) : List (List Byte) :=
  let s := data.length / (e.dataShards + e.parityShards)
  (List.range (e.dataShards + e.parityShards)).map
    (fun i => (data.drop (i * s)).take s)

/-- `Encoder.extractData`: concatenate the `dataShards` data shards. -/
def Encoder.extractData (e : Encoder) (shards : List (List Byte)) :
    Except Err (List Byte) :=
  if shards.length < e.dataShards then .error .decodingFailed
  else .ok (shards.take e.dataShards).flatten

/-- `Encoder.Decode`: validate length, split into shards (all present, so
`Reconstruct` is the identity), and extract the data region. -/
def Encoder.Decode (e : Encoder) (encoded : List Byte) : Except Err (List Byte) :=
  if encoded.length = 0 ∨ encoded.length % (e.dataShards + e.parityShards) ≠ 0 then
    .error .decodingFailed
  else e.extractData (e.splitEncodedData encoded)

theorem shardAt_length (s : Nat) (data : List Byte) (j : Nat) :
    (shardAt s data j).length = s := by
  simp only [shardAt, List.length_append, List.length_replicate,
    List.length_take, List.length_drop]
  omega

theorem shardAt_succ (s : Nat) (data : List Byte) (j : Nat) :
    shardAt s data (j + 1) = shardAt s (data.drop s) j := by
  have h : (j + 1) * s = s + j * s := by ring
  simp [shardAt, h, List.drop_drop, Nat.add_comm]

theorem join_shardAt (k s : Nat) (d : List Byte) (h : d.length ≤ k * s) :
    ((List.range k).map (shardAt s d)).flatten
      = d ++ List.replicate (k * s - d.length) 0 := by
  induction k generalizing d with
  | zero =>
    have hd : d = [] := List.length_eq_zero.mp (by omega)
    simp [hd]
  | succ k ih =>
    have hexp : (k + 1) * s = k * s + s := by ring
    rw [List.range_succ_eq_map]
    simp only [List.map_cons, List.map_map, List.flatten_cons]
    have hcomp : (shardAt s d ∘ Nat.succ) = shardAt s (d.drop s) := by
      funext j
      exact shardAt_succ s d j
    rw [hcomp, ih (d.drop s) (by rw [List.length_drop]; omega)]
    by_cases hds : d.length ≤ s
    · have htake : d.take s = d := List.take_of_length_le hds
      have hdrop : d.drop s = [] := List.drop_eq_nil_of_le hds
      rw [shardAt]
      simp only [Nat.zero_mul, List.drop_zero, htake, hdrop]
      simp only [List.nil_append, List.length_drop, List.length_nil]
      rw [List.append_assoc, ← List.replicate_add]
      congr 2
      omega
    · rw [shardAt]
      simp only [Nat.zero_mul, List.drop_zero]
      have hlt : (d.take s).length = s := by
        rw [List.length_take]
        omega
      rw [hlt]
      simp only [Nat.sub_self, List.replicate_zero, List.append_nil]
      rw [← List.append_assoc, List.take_append_drop]
      have hld : (d.drop s).length = d.length - s := List.length_drop s d
      rw [hld]
      congr 2
      omega

theorem resplit_join (s : Nat) (L : List (List Byte))
    (h : ∀ x ∈ L, x.length = s) :
    (List.range L.length).map (fun i => ((L.flatten).drop (i * s)).take s) = L := by
  induction L with
  | nil => simp
  | cons x rest ih =>
    have hx : x.length = s := h x (by simp)
    simp only [List.length_cons, List.range_succ_eq_map, List.map_cons,
      List.map_map, List.flatten_cons]
    congr 1
    · rw [Nat.zero_mul, List.drop_zero, ← hx, List.take_left]
    · have hfun : ((fun i => ((x ++ rest.flatten).drop (i * s)).take s) ∘ Nat.succ)
          = (fun i => ((rest.flatten).drop (i * s)).take s) := by
        funext i
        have harith : (i + 1) * s = x.length + i * s := by rw [hx]; ring
        simp only [Function.comp_apply, Nat.succ_eq_add_one, harith,
          List.drop_append]
      rw [hfun]
      exact ih (fun y hy => h y (by simp [hy]))

theorem combineShards_uniform (s : Nat) (L : List (List Byte)) (hne : L ≠ [])
    (h : ∀ x ∈ L, x.length = s) : combineShards L = L.flatten := by
  cases L with
  | nil => exact absurd rfl hne
  | cons x rest =>
    have hx : x.length = s := h x (by simp)
    rw [combineShards]
    congr 1
    have hmap : ∀ y ∈ x :: rest,
        (fun sh => sh.take x.length ++ List.replicate (x.length - sh.length) 0) y
          = id y := by
      intro y hy
      have hyl : y.length = s := h y hy
      simp only [id]
      rw [hx, hyl, Nat.sub_self, List.replicate_zero, List.append_nil]
      exact List.take_of_length_le (by omega)
    rw [List.map_congr_left hmap, List.map_id]

theorem flatten_length_uniform (s : Nat) (L : List (List Byte))
    (h : ∀ x ∈ L, x.length = s) : L.flatten.length = L.length * s := by
  induction L with
  | nil => simp
  | cons x rest ih =>
    have hx : x.length = s := h x (by simp)
    have hr := ih (fun y hy => h y (by simp [hy]))
    simp only [List.flatten_cons, List.length_append, List.length_cons, hx, hr]
    rw [Nat.succ_mul]
    omega

theorem take_of_range_map {α : Type} (f : Nat → α) (m n : Nat) (h : m ≤ n) :
    ((List.range n).map f).take m = (List.range m).map f := by
  rw [← List.map_take, List.take_range, Nat.min_eq_left h]

theorem rs_encode_decode_aux (parity : List (List Byte) → List (List Byte))
    (Hpar : ∀ ds L, ds ≠ [] → (∀ sh ∈ ds, sh.length = L) →
      (parity ds).length = ParityShards ∧ ∀ sh ∈ parity ds, sh.length = L)
    (d : List Byte) (h1 : 1 ≤ d.length) (h2 : d.length ≤ MaxDataLen) :
    ∃ v, defaultEncoder.Encode parity d = .ok v ∧
      v.length = (DataShards + ParityShards) * defaultEncoder.shardSizeOf d.length ∧
      defaultEncoder.Decode v
        = .ok (d ++ List.replicate
            (DataShards * defaultEncoder.shardSizeOf d.length - d.length) 0) := by
  set n := d.length with hn
  set s := defaultEncoder.shardSizeOf n with hs
  have hs4 : s = (n + 3) / 4 := rfl
  have hs1 : 1 ≤ s := by rw [hs4]; omega
  have hn4s : n ≤ 4 * s := by rw [hs4]; omega
  -- the four data shards
  set dsList := (List.range 4).map (shardAt s d) with hds
  have hdsLen : dsList.length = 4 := by simp [hds]
  have hdsUniform : ∀ sh ∈ dsList, sh.length = s := by
    intro sh hsh
    rw [hds] at hsh
    obtain ⟨j, _, rfl⟩ := List.mem_map.mp hsh
    exact shardAt_length s d j
  have hdsNe : dsList ≠ [] := by
    intro hnil
    rw [hnil] at hdsLen
    simp at hdsLen
  obtain ⟨hparLen, hparUniform⟩ := Hpar dsList s hdsNe hdsUniform
  set all14 := dsList ++ parity dsList with hall
  have hallLen : all14.length = 14 := by
    simp [hall, hdsLen, hparLen, ParityShards]
  have hallUniform : ∀ sh ∈ all14, sh.length = s := by
    intro sh hsh
    rcases List.mem_append.mp hsh with hl | hr
    · exact hdsUniform sh hl
    · exact hparUniform sh hr
  have hallNe : all14 ≠ [] := by
    intro hnil
    rw [hnil] at hallLen
    simp at hallLen
  -- the split of the input slices off the first `dataShards` shards of the
  -- shard list built by splitIntoShards
  have hsplitTake : (defaultEncoder.splitIntoShards d).take 4 = dsList := by
    rw [Encoder.splitIntoShards, hds]
    exact take_of_range_map _ 4 _ (by norm_num [defaultEncoder, DataShards, ParityShards])
  have hEnc : defaultEncoder.Encode parity d = .ok all14.flatten := by
    rw [Encoder.Encode, if_neg (by omega)]
    show Except.ok (combineShards _) = _
    rw [show defaultEncoder.dataShards = 4 from rfl, hsplitTake]
    rw [combineShards_uniform s all14 hallNe hallUniform]
  have hvLen : all14.flatten.length = 14 * s := by
    rw [flatten_length_uniform s all14 hallUniform, hallLen]
  refine ⟨all14.flatten, hEnc, ?_, ?_⟩
  · rw [hvLen]
    show 14 * s = (4 + 10) * s
    ring
  · rw [Encoder.Decode]
    rw [if_neg ?hvalid]
    case hvalid =>
      rw [hvLen]
      show ¬ (14 * s = 0 ∨ 14 * s % (4 + 10) ≠ 0)
      push_neg
      exact ⟨by omega, by omega⟩
    have hsplit : defaultEncoder.splitEncodedData all14.flatten = all14 := by
      rw [Encoder.splitEncodedData]
      show (List.range (4 + 10)).map
        (fun i => ((all14.flatten.drop (i * (all14.flatten.length / (4 + 10))))).take
          (all14.flatten.length / (4 + 10))) = all14
      rw [hvLen]
      rw [show 14 * s / (4 + 10) = s from by omega]
      rw [show (4 + 10) = all14.length from by rw [hallLen]]
      exact resplit_join s all14 hallUniform
    rw [hsplit, Encoder.extractData, if_neg (by rw [hallLen]; norm_num [defaultEncoder, DataShards])]
    show Except.ok (all14.take defaultEncoder.dataShards).flatten = _
    rw [show defaultEncoder.dataShards = 4 from rfl]
    rw [hall, show (4 : Nat) = dsList.length from hdsLen.symm, List.take_left]
    rw [hds, join_shardAt 4 s d hn4s]
    rw [show DataShards * defaultEncoder.shardSizeOf d.length = 4 * s from by
      rw [hs, hn]; rfl]

/-- Claim C4: for `1 ≤ |d| ≤ maxDataLen`, `Encode d` has length a multiple of
`k+m`, and `Decode (Encode d)` succeeds and returns `d` right-padded with
`k·⌈|d|/k⌉ − |d|` zero bytes; the coder does not restore the original length.
The `parity` parameter is the library's parity computation; the only facts
used about it are the shard count and shard sizes of its output. -/
theorem rs_encode_decode (parity : List (List Byte) → List (List Byte))
    (Hpar : ∀ ds L, ds ≠ [] → (∀ sh ∈ ds, sh.length = L) →
      (parity ds).length = ParityShards ∧ ∀ sh ∈ parity ds, sh.length = L)
    (d : List Byte) (h1 : 1 ≤ d.length) (h2 : d.length ≤ MaxDataLen) :
    ∃ v, defaultEncoder.Encode parity d = .ok v ∧
      v.length % (DataShards + ParityShards) = 0 ∧
      defaultEncoder.Decode v
        = .ok (d ++ List.replicate
            (DataShards * defaultEncoder.shardSizeOf d.length - d.length) 0) := by
  obtain ⟨v, hEnc, hLen, hDec⟩ := rs_encode_decode_aux parity Hpar d h1 h2
  exact ⟨v, hEnc, by rw [hLen]; exact Nat.mul_mod_right _ _, hDec⟩

/-- A stand-in parity computation used to instantiate the library parameter
in witnesses: `ParityShards` zero shards of the data-shard size. -/
def zeroParity (ds : List (List Byte)) : List (List Byte) :=
  List.replicate ParityShards (List.replicate (ds.head?.getD []).length 0)

theorem zeroParity_spec : ∀ ds L, ds ≠ [] → (∀ sh ∈ ds, sh.length = L) →
    (zeroParity ds).length = ParityShards ∧ ∀ sh ∈ zeroParity ds, sh.length = L := by
  intro ds L hne hlen
  refine ⟨by simp [zeroParity], ?_⟩
  intro sh hsh
  have hsh' : sh = List.replicate (ds.head?.getD []).length 0 :=
    List.eq_of_mem_replicate hsh
  cases ds with
  | nil => exact absurd rfl hne
  | cons x rest =>
    have hx : x.length = L := hlen x (by simp)
    simp [hsh', hx]

/-- Claim C4 witness: the round trip evaluated on the concrete input
`[1, 2, 3, 4, 5]` with the stand-in parity computation. -/
theorem rs_encode_decode_witness :
    ∃ v, defaultEncoder.Encode zeroParity [1, 2, 3, 4, 5] = .ok v ∧
      v.length % (DataShards + ParityShards) = 0 ∧
      defaultEncoder.Decode v
        = .ok (([1, 2, 3, 4, 5] : List Byte) ++ List.replicate
            (DataShards * defaultEncoder.shardSizeOf
              ([1, 2, 3, 4, 5] : List Byte).length - ([1, 2, 3, 4, 5] : List Byte).length) 0) :=
  rs_encode_decode zeroParity zeroParity_spec [1, 2, 3, 4, 5]
    (by decide) (by norm_num [MaxDataLen])

/-! ## AES-GCM cipher (`internal/infrastructure/crypto/aes.go`)

The GCM primitive itself is `crypto/cipher`; it enters as the `sealFn` /
`aeadOpen` parameters (for a fixed 32-byte key).  The cipher code embedded
here is the repository's wrapper: empty/short-input validation, the
nonce-prefix layout `nonce ‖ Seal(nonce, plaintext)`, and the nonce split on
decryption. -/

def GCMNonceSize : Nat := 12

def GCMTagSize : Nat := 16

/-- `AESCipher.Encrypt`: rejects empty plaintext, then returns
`aead.Seal(nonce, nonce, plaintext, nil)`, i.e. the fresh random nonce
(passed here as a parameter) followed by the sealed bytes. -/
def AESCipher.Encrypt (sealFn : List Byte → List Byte → List Byte)
    (nonce plaintext : List Byte) : Except Err (List Byte) :=
  if plaintext.length = 0 then .error .emptyPlaintext
  else .ok (nonce ++ sealFn nonce plaintext)

/-- `AESCipher.Decrypt`: rejects empty input and input shorter than the
nonce, splits off the 12-byte nonce prefix and calls `aead.Open`
(`none` models GCM authentication failure). -/
def AESCipher.Decrypt (aeadOpen : List Byte → List Byte → Option (List Byte))
    (ciphertext : List Byte) : Except Err (List Byte) :=
  if ciphertext.length = 0 then .error .emptyCiphertext
  else if ciphertext.length < GCMNonceSize then .error .decryptionFailed
  else
    match aeadOpen (ciphertext.take GCMNonceSize) (ciphertext.drop GCMNonceSize) with
    | some pt => .ok pt
    | none => .error .decryptionFailed

/-! ## gzip compression (`internal/infrastructure/compression/compressor.go`)

The gzip streams are `compress/gzip`; `deflate` is the writer and `inflate`
the reader (`none` = corrupt stream), modelling the full decompressed
stream.  `Decompress` copies that stream through
`io.LimitReader(reader, MaxDecompressionSize)`, which simply stops at the
limit without surfacing an error: the result is the truncated prefix. -/

def MaxDecompressionSize : Nat := 100 * 1024 * 1024

/-- `Compressor.Compress`: empty input is returned as is. -/
def Compressor.Compress (deflate : List Byte → List Byte) (data : List Byte) :
    Except Err (List Byte) :=
  if data.length = 0 then .ok data
  else .ok (deflate data)

/-- `Compressor.Decompress`: empty input returned as is; otherwise inflate
and copy through the 100 MiB `LimitReader`. -/
def Compressor.Decompress (inflate : List Byte → Option (List Byte))
    (data : List Byte) : Except Err (List Byte) :=
  if data.length = 0 then .ok data
  else
    match inflate data with
    | none => .error .decompressionFailed
    | some out => .ok (out.take MaxDecompressionSize)

/-- `maxDecompressedSize` of the sibling zlib decompressor
(`internal/compression/decompress.go`). -/
def maxDecompressedSize : Nat := 2 ^ 30

/-- The `decompress` helper of `internal/compression/decompress.go`: same
`LimitReader` pattern, but it errors out when the copied byte count reaches
the bound instead of returning the truncation. -/
def zlibDecompress (inflate : List Byte → Option (List Byte))
    (compressedData : List Byte) : Except Err (List Byte) :=
  match inflate compressedData with
  | none => .error .decompressionFailed
  | some out =>
    let bytesRead := (out.take maxDecompressedSize).length
    if maxDecompressedSize ≤ bytesRead then .error .decompressionFailed
    else .ok (out.take maxDecompressedSize)

/-! ## Chunk pipeline (`internal/infrastructure/processor.go`) -/

/-- `Processor.Encrypt`: compress, pad, AEAD-seal, Reed-Solomon encode. -/
def Processor.Encrypt (deflate : List Byte → List Byte)
    (sealFn : List Byte → List Byte → List Byte)
    (parity : List (List Byte) → List (List Byte))
    (nonce data : List Byte) : Except Err (List Byte) := do
  let compressed ← Compressor.Compress deflate data
  let padded := Padder.Pad PaddingSize compressed
  let encrypted ← AESCipher.Encrypt sealFn nonce padded
  defaultEncoder.Encode parity encrypted

/-- `Processor.Decrypt`: Reed-Solomon decode, AEAD-open, unpad, decompress. -/
def Processor.Decrypt (inflate : List Byte → Option (List Byte))
    (aeadOpen : List Byte → List Byte → Option (List Byte))
    (data : List Byte) : Except Err (List Byte) := do
  let decoded ← defaultEncoder.Decode data
  let decrypted ← AESCipher.Decrypt aeadOpen decoded
  let unpadded ← Padder.Unpad PaddingSize decrypted
  Compressor.Decompress inflate unpadded

theorem encode_decode_exact (parity : List (List Byte) → List (List Byte))
    (Hpar : ∀ ds L, ds ≠ [] → (∀ sh ∈ ds, sh.length = L) →
      (parity ds).length = ParityShards ∧ ∀ sh ∈ parity ds, sh.length = L)
    (d : List Byte) (h4 : d.length % 4 = 0) (h1 : 1 ≤ d.length)
    (h2 : d.length ≤ MaxDataLen) :
    ∃ v, defaultEncoder.Encode parity d = .ok v ∧
      v.length = 14 * (d.length / 4) ∧
      defaultEncoder.Decode v = .ok d := by
  obtain ⟨v, hv, hLen, hDec⟩ := rs_encode_decode_aux parity Hpar d h1 h2
  have hshard : defaultEncoder.shardSizeOf d.length = d.length / 4 := by
    show (d.length + 4 - 1) / 4 = d.length / 4
    omega
  refine ⟨v, hv, ?_, ?_⟩
  · rw [hLen, hshard]
    show (4 + 10) * (d.length / 4) = 14 * (d.length / 4)
    ring
  · have hz : DataShards * defaultEncoder.shardSizeOf d.length - d.length = 0 := by
      rw [hshard]
      show 4 * (d.length / 4) - d.length = 0
      omega
    rw [hDec, hz, List.replicate_zero, List.append_nil]

theorem padded_mod16 (c : List Byte) : (Padder.Pad PaddingSize c).length % 16 = 0 := by
  rw [pad_length]
  have : c.length % 16 < 16 := Nat.mod_lt _ (by norm_num)
  show (c.length + (16 - c.length % 16)) % 16 = 0
  omega

theorem sealed_length (sealFn : List Byte → List Byte → List Byte)
    (nonce p : List Byte) (Hn : nonce.length = GCMNonceSize)
    (Hs : (sealFn nonce p).length = p.length + GCMTagSize) :
    (nonce ++ sealFn nonce p).length = p.length + 28 := by
  rw [List.length_append, Hn, Hs]
  show 12 + (p.length + 16) = p.length + 28
  omega

/-- Claim C3: for every non-empty chunk, the sealed AEAD output of the
encryption pipeline is 28 bytes (12-byte nonce prefix + 16-byte GCM tag)
longer than the PKCS#7-padded input, which is always divisible by the 4 data
shards; hence `shardSize·k` equals the sealed length (the splitter appends
no trailing zero bytes), `Decode` returns exactly the sealed ciphertext, and
the single AEAD open of `Processor.Decrypt` receives precisely the sealed
bytes. -/
theorem sealed_output_aligned (deflate : List Byte → List Byte)
    (sealFn : List Byte → List Byte → List Byte)
    (parity : List (List Byte) → List (List Byte)) (nonce chunk : List Byte)
    (Hn : nonce.length = GCMNonceSize)
    (Hs : ∀ n p, (sealFn n p).length = p.length + GCMTagSize)
    (Hpar : ∀ ds L, ds ≠ [] → (∀ sh ∈ ds, sh.length = L) →
      (parity ds).length = ParityShards ∧ ∀ sh ∈ parity ds, sh.length = L)
    (Hc : chunk ≠ [])
    (Hbound : (deflate chunk).length + 44 ≤ MaxDataLen) :
    ∃ v,
      Processor.Encrypt deflate sealFn parity nonce chunk = .ok v ∧
      (nonce ++ sealFn nonce (Padder.Pad PaddingSize (deflate chunk))).length
        = (Padder.Pad PaddingSize (deflate chunk)).length + 28 ∧
      (nonce ++ sealFn nonce (Padder.Pad PaddingSize (deflate chunk))).length
        % DataShards = 0 ∧
      DataShards * defaultEncoder.shardSizeOf
          (nonce ++ sealFn nonce (Padder.Pad PaddingSize (deflate chunk))).length
        = (nonce ++ sealFn nonce (Padder.Pad PaddingSize (deflate chunk))).length ∧
      defaultEncoder.Decode v
        = .ok (nonce ++ sealFn nonce (Padder.Pad PaddingSize (deflate chunk))) ∧
      ∀ inflate aeadOpen,
        Processor.Decrypt inflate aeadOpen v
          = (AESCipher.Decrypt aeadOpen
              (nonce ++ sealFn nonce (Padder.Pad PaddingSize (deflate chunk)))).bind
              (fun dec => (Padder.Unpad PaddingSize dec).bind
                (Compressor.Decompress inflate)) := by
  set c := deflate chunk with hc
  set padded := Padder.Pad PaddingSize c with hpadded
  set sealed := nonce ++ sealFn nonce padded with hsealed
  have hPadMod : padded.length % 16 = 0 := padded_mod16 c
  have hPadPos : 1 ≤ padded.length := by
    rw [hpadded, pad_length]
    simp only [PaddingSize]
    have : c.length % 16 < 16 := Nat.mod_lt _ (by norm_num)
    omega
  have hSealLen : sealed.length = padded.length + 28 :=
    sealed_length sealFn nonce padded Hn (Hs nonce padded)
  have h4 : sealed.length % 4 = 0 := by omega
  have h1 : 1 ≤ sealed.length := by omega
  have h2 : sealed.length ≤ MaxDataLen := by
    have hple : padded.length ≤ c.length + 16 := by
      rw [hpadded, pad_length]
      simp only [PaddingSize]
      have : c.length % 16 < 16 := Nat.mod_lt _ (by norm_num)
      omega
    simp only [MaxDataLen] at Hbound ⊢
    omega
  obtain ⟨v, hEnc, _, hDec⟩ := encode_decode_exact parity Hpar sealed h4 h1 h2
  have hChunkNe : ¬ (chunk.length = 0) := by
    simpa [List.length_eq_zero] using Hc
  have hCompress : Compressor.Compress deflate chunk = .ok c := by
    rw [Compressor.Compress, if_neg hChunkNe]
  have hAES : AESCipher.Encrypt sealFn nonce padded = .ok sealed := by
    rw [AESCipher.Encrypt, if_neg (by omega)]
  have hEnc' : Processor.Encrypt deflate sealFn parity nonce chunk = .ok v := by
    simp only [Processor.Encrypt]
    rw [hCompress]
    show (AESCipher.Encrypt sealFn nonce (Padder.Pad PaddingSize c) >>=
      fun encrypted => defaultEncoder.Encode parity encrypted) = .ok v
    rw [hAES]
    exact hEnc
  refine ⟨v, hEnc', hSealLen, by show sealed.length % 4 = 0; omega, ?_, hDec, ?_⟩
  · show 4 * defaultEncoder.shardSizeOf sealed.length = sealed.length
    show 4 * ((sealed.length + 4 - 1) / 4) = sealed.length
    omega
  · intro inflate aeadOpen
    simp only [Processor.Decrypt]
    rw [hDec]
    rfl

/-- Claim C3 witness: the alignment facts applied to the concrete chunk
`[1, 2, 3]` with stand-ins for the gzip, GCM and parity primitives. -/
theorem sealed_output_aligned_witness :
    ∃ v,
      Processor.Encrypt (fun x => 0 :: x) (fun _ p => p ++ List.replicate 16 0)
        zeroParity (List.replicate 12 0) [1, 2, 3] = .ok v ∧
      (List.replicate 12 0 ++
          (Padder.Pad PaddingSize [0, 1, 2, 3] ++ List.replicate 16 0)).length
        = (Padder.Pad PaddingSize [0, 1, 2, 3]).length + 28 ∧
      (List.replicate 12 0 ++
          (Padder.Pad PaddingSize [0, 1, 2, 3] ++ List.replicate 16 0)).length
        % DataShards = 0 ∧
      DataShards * defaultEncoder.shardSizeOf
          (List.replicate 12 0 ++
            (Padder.Pad PaddingSize [0, 1, 2, 3] ++ List.replicate 16 0)).length
        = (List.replicate 12 0 ++
            (Padder.Pad PaddingSize [0, 1, 2, 3] ++ List.replicate 16 0)).length ∧
      defaultEncoder.Decode v
        = .ok (List.replicate 12 0 ++
            (Padder.Pad PaddingSize [0, 1, 2, 3] ++ List.replicate 16 0)) ∧
      ∀ inflate aeadOpen,
        Processor.Decrypt inflate aeadOpen v
          = (AESCipher.Decrypt aeadOpen
              (List.replicate 12 0 ++
                (Padder.Pad PaddingSize [0, 1, 2, 3] ++ List.replicate 16 0))).bind
              (fun dec => (Padder.Unpad PaddingSize dec).bind
                (Compressor.Decompress inflate)) :=
  sealed_output_aligned (fun x => 0 :: x) (fun _ p => p ++ List.replicate 16 0)
    zeroParity (List.replicate 12 0) [1, 2, 3]
    (by decide) (fun n p => by simp [GCMTagSize]) zeroParity_spec
    (by decide) (by decide)

/-- Claim C8 (divergence record): a gzip stream inflating to one byte more
than the 100 MiB bound makes the infrastructure `Decompress` return the
silently truncated 100 MiB prefix with no error, while the sibling
`internal/compression` decompressor reports failure at its own bound; the
spec requires the failure behaviour. -/
theorem decompress_silently_truncates :
    Compressor.Decompress
        (fun _ => some (List.replicate (MaxDecompressionSize + 1) 0)) [1]
      = .ok (List.replicate MaxDecompressionSize 0) ∧
    zlibDecompress
        (fun _ => some (List.replicate (maxDecompressedSize + 1) 0)) [1]
      = .error .decompressionFailed := by
  constructor
  · rw [Compressor.Decompress, if_neg (by decide)]
    show Except.ok ((List.replicate (MaxDecompressionSize + 1) (0 : Byte)).take
      MaxDecompressionSize) = _
    rw [List.take_replicate, Nat.min_eq_left (by omega)]
  · rw [zlibDecompress]
    simp only [List.take_replicate, List.length_replicate]
    rw [if_pos (by omega)]

/-! ## The spec's "try-and-shrink" length recovery (claim C2)

Modelled from the spec: spec §4.6 prescribes that the decryptor attempt the
AEAD open on the decoded buffer truncated to `k·shardSize` and, on failure,
iteratively shorten the candidate by one byte, retrying until the open
succeeds or the candidate length drops below `29 + 16 = 45`.  No such loop
exists anywhere in the repository; the code performs a single AEAD open
(`Processor.Decrypt` / `ChunkProcessor.Decryption`). The loop is written
with a fuel argument (always sufficient) so that it computes. -/

def shrinkLoop (aeadOpen : List Byte → List Byte → Option (List Byte)) :
    Nat → List Byte → Option (List Byte)
  | 0, _ => none
  | fuel + 1, cand =>
    if cand.length < 29 + 16 then none
    else
      match AESCipher.Decrypt aeadOpen cand with
      | .ok pt => some pt
      | .error _ => shrinkLoop aeadOpen fuel (cand.take (cand.length - 1))

/-- Modelled from the spec: the try-and-shrink AEAD open of spec §4.6. -/
def specShrinkOpen (aeadOpen : List Byte → List Byte → Option (List Byte))
    (buf : List Byte) : Option (List Byte) :=
  shrinkLoop aeadOpen (buf.length + 1) buf

/-- An AEAD oracle that accepts exactly the ciphertexts of length 35 (i.e.
candidates of length 47 after the 12-byte nonce), rejecting length 36 — so
the claimed shrink loop would succeed one byte below the full decoded
buffer of 48 bytes, while the implemented single open fails. -/
def shrinkOracle : List Byte → List Byte → Option (List Byte) :=
  fun _ ct => if ct.length = 35 then some (Padder.Pad PaddingSize []) else none

set_option maxRecDepth 10000 in
/-- Claim C2 counterexample: on the 168-byte encoded chunk of zeros, the
decoded buffer is the 48 zero bytes; the spec's try-and-shrink procedure
succeeds (at candidate length 47) but `Processor.Decrypt` fails with
`decryptionFailed`: the code never retries at a shorter candidate. -/
theorem decrypt_no_shrink_counterexample :
    defaultEncoder.Decode (List.replicate 168 0) = .ok (List.replicate 48 0) ∧
    specShrinkOpen shrinkOracle (List.replicate 48 0)
      = some (Padder.Pad PaddingSize []) ∧
    Processor.Decrypt (fun _ => none) shrinkOracle (List.replicate 168 0)
      = .error .decryptionFailed := by
  refine ⟨by decide, by decide, by decide⟩

/-- Claim C2 (amended): during chunk decryption the decryptor attempts the
AEAD open exactly once, on the full decoded buffer of `k·shardSize` bytes;
if that single open fails, decryption fails with `decryptionFailed` — no
iterative shortening is attempted (and none is needed for ciphertexts
produced by `Processor.Encrypt`, whose sealed length is divisible by the
data-shard count, see claim C3). -/
theorem decrypt_single_open (inflate : List Byte → Option (List Byte))
    (aeadOpen : List Byte → List Byte → Option (List Byte))
    (data decoded : List Byte)
    (hdec : defaultEncoder.Decode data = .ok decoded)
    (hlen : ¬ decoded.length = 0) (hlen12 : ¬ decoded.length < GCMNonceSize)
    (hopen : aeadOpen (decoded.take GCMNonceSize) (decoded.drop GCMNonceSize)
      = none) :
    Processor.Decrypt inflate aeadOpen data = .error .decryptionFailed := by
  simp only [Processor.Decrypt]
  rw [hdec]
  show (AESCipher.Decrypt aeadOpen decoded >>= fun decrypted =>
    (Padder.Unpad PaddingSize decrypted >>= Compressor.Decompress inflate)) = _
  rw [AESCipher.Decrypt, if_neg hlen, if_neg hlen12, hopen]
  rfl

set_option maxRecDepth 10000 in
/-- Claim C2 amended-claim witness: the single-open behaviour evaluated on
the concrete 168-byte encoded chunk of zeros with an always-failing oracle. -/
theorem decrypt_single_open_witness :
    Processor.Decrypt (fun _ => none) (fun _ _ => none) (List.replicate 168 0)
      = .error .decryptionFailed :=
  decrypt_single_open (fun _ => none) (fun _ _ => none)
    (List.replicate 168 0) (List.replicate 48 0)
    (by decide) (by decide) (by decide) (by decide)

/-! ## The 128-byte file header (`internal/header/header.go`; identical
logic in `internal/infrastructure/crypto/header.go`)

SHA-256, HMAC-SHA256 and CRC32-IEEE are standard-library primitives; they
enter as the parameters `sha256F` (32-byte digests), `hmacF` (keyed, 32-byte
tags) and `crc32F` (a `uint32` value, truncated by `PutUint32` on
serialisation). -/

def MagicBytes : List Byte := [72, 87, 88, 50]

def OriginalSizeBytes : Nat := 8

def NonceSize : Nat := 16

def IntegritySize : Nat := 32

def AuthSize : Nat := 32

def ChecksumSize : Nat := 4

def TotalSize : Nat := 128

structure Header where
  salt : List Byte
  originalSize : Nat
  nonce : List Byte
  integrityHash : List Byte
  authTag : List Byte
  deriving DecidableEq, Repr

/-- `computeIntegrityHash`: SHA-256 over magic ‖ salt ‖ size ‖ nonce. -/
def Header.computeIntegrityHash (sha256F : List Byte → List Byte) (h : Header) :
    List Byte :=
  sha256F (MagicBytes ++ h.salt ++ beBytes OriginalSizeBytes h.originalSize ++ h.nonce)

/-- `computeAuthTag`: HMAC-SHA256 over magic ‖ salt ‖ size ‖ nonce ‖ ihash. -/
def Header.computeAuthTag (hmacF : List Byte → List Byte → List Byte)
    (key : List Byte) (h : Header) : List Byte :=
  hmacF key (MagicBytes ++ h.salt ++ beBytes OriginalSizeBytes h.originalSize ++
    h.nonce ++ h.integrityHash)

/-- `header.New`: validate inputs (salt size, key non-empty, salt
weakness), then store the fields and compute the protections.  The random
16-byte nonce is a parameter. -/
def HeaderNew (sha256F : List Byte → List Byte)
    (hmacF : List Byte → List Byte → List Byte)
    (salt : List Byte) (originalSize : Nat) (key : List Byte)
    (nonce : List Byte) : Except Err Header :=
  if salt.length ≠ SaltSize then .error .invalidSalt
  else if key.length = 0 then .error .emptyKey
  else if isWeakSalt salt then .error .weakSalt
  else
    let h0 : Header := ⟨salt, originalSize, nonce, [], []⟩
    let withIh : Header := { h0 with integrityHash := h0.computeIntegrityHash sha256F }
    .ok { withIh with authTag := withIh.computeAuthTag hmacF key }

/-- `Header.marshal`: magic ‖ salt ‖ size ‖ nonce ‖ ihash ‖ authTag, followed
by the big-endian CRC32 of everything after the magic. -/
def Header.marshal (crc32F : List Byte → Nat) (h : Header) : List Byte :=
  let body := MagicBytes ++ h.salt ++ beBytes OriginalSizeBytes h.originalSize ++
    h.nonce ++ h.integrityHash ++ h.authTag
  body ++ beBytes ChecksumSize (crc32F (body.drop MagicBytes.length))

/-- `unmarshal`: size check, magic check, fixed-offset field extraction,
CRC32 verification, integrity-hash verification. -/
def unmarshal (crc32F : List Byte → Nat) (sha256F : List Byte → List Byte)
    (data : List Byte) : Except Err Header :=
  if data.length ≠ TotalSize then .error .invalidHeaderSize
  else if data.take MagicBytes.length ≠ MagicBytes then .error .invalidMagic
  else
    let salt := (data.drop 4).take SaltSize
    let originalSize := beVal ((data.drop 36).take OriginalSizeBytes)
    let nonce := (data.drop 44).take NonceSize
    let integrityHash := (data.drop 60).take IntegritySize
    let authTag := (data.drop 92).take AuthSize
    let stored := (data.drop 124).take ChecksumSize
    let calculated := beBytes ChecksumSize (crc32F ((data.drop 4).take 120))
    if stored ≠ calculated then .error .checksumMismatch
    else
      let h : Header := ⟨salt, originalSize, nonce, integrityHash, authTag⟩
      if h.integrityHash ≠ h.computeIntegrityHash sha256F then .error .tampering
      else .ok h

/-- `Header.VerifyKey`: recompute the auth tag under the supplied key and
the integrity hash, in that order. -/
def Header.VerifyKey (sha256F : List Byte → List Byte)
    (hmacF : List Byte → List Byte → List Byte) (key : List Byte)
    (h : Header) : Except Err Unit :=
  if h.authTag ≠ h.computeAuthTag hmacF key then .error .authFailure
  else if h.integrityHash ≠ h.computeIntegrityHash sha256F then .error .integrityFailure
  else .ok ()

/-- The region of the serialised header covered by the CRC32 checksum
(everything after the magic, before the checksum). -/
def crcCover (h : Header) : List Byte :=
  h.salt ++ (beBytes OriginalSizeBytes h.originalSize ++ (h.nonce ++
    (h.integrityHash ++ h.authTag)))

theorem marshal_eq (crc32F : List Byte → Nat) (h : Header) :
    h.marshal crc32F
      = MagicBytes ++ (crcCover h ++ beBytes ChecksumSize (crc32F (crcCover h))) := by
  rw [Header.marshal]
  have hbody : MagicBytes ++ h.salt ++ beBytes OriginalSizeBytes h.originalSize ++
      h.nonce ++ h.integrityHash ++ h.authTag = MagicBytes ++ crcCover h := by
    simp [crcCover, List.append_assoc]
  rw [hbody, List.drop_left, List.append_assoc]

theorem crcCover_length (h : Header) (hsalt : h.salt.length = 32)
    (hnonce : h.nonce.length = 16) (hih : h.integrityHash.length = 32)
    (hat : h.authTag.length = 32) : (crcCover h).length = 120 := by
  simp [crcCover, length_beBytes, hsalt, hnonce, hih, hat, OriginalSizeBytes]

theorem drop_chain (d x rest : List Byte) (n k : Nat) (hx : x.length = k)
    (hd : d.drop n = x ++ rest) : d.drop (n + k) = rest := by
  rw [← List.drop_drop k n d, hd, List.drop_left' hx]

theorem unmarshal_marshal (crc32F : List Byte → Nat)
    (sha256F : List Byte → List Byte) (h : Header)
    (hsalt : h.salt.length = 32) (hnonce : h.nonce.length = 16)
    (hih : h.integrityHash.length = 32) (hat : h.authTag.length = 32)
    (hsize : h.originalSize < 2 ^ 64)
    (hgood : h.integrityHash = h.computeIntegrityHash sha256F) :
    unmarshal crc32F sha256F (h.marshal crc32F) = .ok h := by
  set data := h.marshal crc32F with hdata
  set crcB := beBytes ChecksumSize (crc32F (crcCover h)) with hcrcB
  have hform : data = MagicBytes ++ (crcCover h ++ crcB) := marshal_eq crc32F h
  have hcoverLen : (crcCover h).length = 120 := crcCover_length h hsalt hnonce hih hat
  have hms : MagicBytes.length = 4 := rfl
  have hcrcBLen : crcB.length = 4 := length_beBytes _ _
  have hdataLen : data.length = 128 := by
    rw [hform]
    simp [hms, hcoverLen, hcrcBLen]
  -- the drop chain through the fixed offsets
  have hd4 : data.drop 4 = crcCover h ++ crcB := by
    rw [hform]
    exact List.drop_left' hms
  have hd4' : data.drop 4
      = h.salt ++ (beBytes OriginalSizeBytes h.originalSize ++ (h.nonce ++
          (h.integrityHash ++ h.authTag)) ++ crcB) := by
    rw [hd4, crcCover]
    simp [List.append_assoc]
  have hd36 : data.drop 36
      = beBytes OriginalSizeBytes h.originalSize ++ ((h.nonce ++
          (h.integrityHash ++ h.authTag)) ++ crcB) :=
    drop_chain data h.salt _ 4 32 hsalt hd4'
  have hd44 : data.drop 44
      = h.nonce ++ ((h.integrityHash ++ h.authTag) ++ crcB) := by
    have step := drop_chain data (beBytes OriginalSizeBytes h.originalSize) _ 36 8
      (length_beBytes _ _) hd36
    rw [step]
    simp [List.append_assoc]
  have hd60 : data.drop 60 = h.integrityHash ++ (h.authTag ++ crcB) := by
    have step := drop_chain data h.nonce _ 44 16 hnonce hd44
    rw [step]
    simp [List.append_assoc]
  have hd92 : data.drop 92 = h.authTag ++ crcB :=
    drop_chain data h.integrityHash _ 60 32 hih hd60
  have hd124 : data.drop 124 = crcB :=
    drop_chain data h.authTag _ 92 32 hat hd92
  rw [unmarshal]
  rw [if_neg (by rw [hdataLen]; exact fun hc => absurd rfl hc)]
  rw [if_neg (by
    rw [hform, show MagicBytes.length = 4 from rfl, List.take_left' hms]
    exact fun hc => absurd rfl hc)]
  simp only [hd4', hd36, hd44, hd60, hd92, hd124]
  simp only [List.append_assoc]
  have htakeSalt :
      (h.salt ++ (beBytes OriginalSizeBytes h.originalSize ++ (h.nonce ++
        (h.integrityHash ++ (h.authTag ++ crcB))))).take SaltSize = h.salt :=
    List.take_left' hsalt
  have htake120 :
      (h.salt ++ (beBytes OriginalSizeBytes h.originalSize ++ (h.nonce ++
        (h.integrityHash ++ (h.authTag ++ crcB))))).take 120 = crcCover h := by
    have hregroup : h.salt ++ (beBytes OriginalSizeBytes h.originalSize ++
        (h.nonce ++ (h.integrityHash ++ (h.authTag ++ crcB))))
        = crcCover h ++ crcB := by
      rw [crcCover]
      simp [List.append_assoc]
    rw [hregroup]
    exact List.take_left' hcoverLen
  have htakeSize :
      (beBytes OriginalSizeBytes h.originalSize ++ (h.nonce ++
        (h.integrityHash ++ (h.authTag ++ crcB)))).take OriginalSizeBytes
        = beBytes OriginalSizeBytes h.originalSize :=
    List.take_left' (length_beBytes _ _)
  have htakeNonce :
      (h.nonce ++ (h.integrityHash ++ (h.authTag ++ crcB))).take NonceSize
        = h.nonce := List.take_left' hnonce
  have htakeIh :
      (h.integrityHash ++ (h.authTag ++ crcB)).take IntegritySize
        = h.integrityHash := List.take_left' hih
  have htakeAt : (h.authTag ++ crcB).take AuthSize = h.authTag :=
    List.take_left' hat
  have htakeCrc : crcB.take ChecksumSize = crcB :=
    List.take_of_length_le (le_of_eq hcrcBLen)
  rw [htakeSalt, htake120, htakeSize, htakeNonce, htakeIh, htakeAt, htakeCrc]
  rw [if_neg (by rw [hcrcB]; exact fun hc => absurd rfl hc)]
  have hsz : beVal (beBytes OriginalSizeBytes h.originalSize) = h.originalSize := by
    rw [beVal_beBytes]
    exact Nat.mod_eq_of_lt (by exact_mod_cast hsize)
  rw [hsz]
  rw [if_neg ?hnt]
  case hnt =>
    show ¬ h.integrityHash ≠ Header.computeIntegrityHash sha256F ⟨h.salt, _, _, _, _⟩
    rw [Header.computeIntegrityHash]
    rw [hgood, Header.computeIntegrityHash]
    exact fun hc => absurd rfl hc

/-- Claim C6: for every header constructed by `New` from a valid 32-byte
non-weak salt, any `uint64` original size and a non-empty key, parsing the
128-byte serialisation yields the header back field-for-field (salt,
originalSize, nonce, integrityHash, authTag). -/
theorem header_roundtrip (sha256F : List Byte → List Byte)
    (hmacF : List Byte → List Byte → List Byte) (crc32F : List Byte → Nat)
    (salt nonce key : List Byte) (originalSize : Nat)
    (hsalt : salt.length = 32) (hweak : isWeakSalt salt = false)
    (hkey : key ≠ []) (hnonce : nonce.length = 16)
    (hsize : originalSize < 2 ^ 64)
    (hsha : ∀ x, (sha256F x).length = 32)
    (hhmac : ∀ k x, (hmacF k x).length = 32) :
    ∃ h, HeaderNew sha256F hmacF salt originalSize key nonce = .ok h ∧
      h.salt = salt ∧ h.originalSize = originalSize ∧ h.nonce = nonce ∧
      unmarshal crc32F sha256F (h.marshal crc32F) = .ok h := by
  have hkeyLen : ¬ (key.length = 0) := by
    simpa [List.length_eq_zero] using hkey
  have hNew : HeaderNew sha256F hmacF salt originalSize key nonce
      = .ok ⟨salt, originalSize, nonce,
          Header.computeIntegrityHash sha256F ⟨salt, originalSize, nonce, [], []⟩,
          Header.computeAuthTag hmacF key
            ⟨salt, originalSize, nonce,
              Header.computeIntegrityHash sha256F ⟨salt, originalSize, nonce, [], []⟩,
              []⟩⟩ := by
    rw [HeaderNew]
    rw [if_neg (by rw [hsalt]; exact fun hc => absurd rfl hc),
      if_neg hkeyLen, if_neg (by rw [hweak]; exact Bool.false_ne_true)]
  refine ⟨_, hNew, rfl, rfl, rfl, ?_⟩
  apply unmarshal_marshal
  · exact hsalt
  · exact hnonce
  · exact hsha _
  · exact hhmac _ _
  · exact hsize
  · rw [Header.computeIntegrityHash, Header.computeIntegrityHash]

theorem unmarshal_checksum_fail (crc32F : List Byte → Nat)
    (sha256F : List Byte → List Byte) (C K : List Byte)
    (hC : C.length = 120) (hK : K.length = 4)
    (hmm : K ≠ beBytes ChecksumSize (crc32F C)) :
    unmarshal crc32F sha256F (MagicBytes ++ (C ++ K))
      = .error .checksumMismatch := by
  set data := MagicBytes ++ (C ++ K) with hdata
  have hms : MagicBytes.length = 4 := rfl
  have hlen : data.length = 128 := by
    rw [hdata]
    simp [hms, hC, hK]
  have hd4 : data.drop 4 = C ++ K := by
    rw [hdata]
    exact List.drop_left' hms
  have htake120 : (C ++ K).take 120 = C := List.take_left' hC
  have hd124 : data.drop 124 = K := drop_chain data C K 4 120 hC hd4
  have hstored : K.take ChecksumSize = K :=
    List.take_of_length_le (le_of_eq hK)
  have hmagic : data.take MagicBytes.length = MagicBytes := by
    rw [hdata]
    exact List.take_left _ _
  rw [unmarshal,
    if_neg (show ¬ (data.length ≠ TotalSize) from not_not_intro hlen),
    if_neg (show ¬ (data.take MagicBytes.length ≠ MagicBytes) from
      not_not_intro hmagic)]
  rw [hd4, htake120, hd124, hstored]
  rw [if_pos hmm]

/-- Claim C7: a single-byte modification at any offset in `[4, 127]` of a
validly serialised 128-byte header makes parsing fail with one of
`ChecksumMismatch`, `Tampering`, `AuthFailure`, `InvalidMagic` (in fact the
CRC32 check catches every such modification, because the checksum covers
bytes `[4, 124)` and the modified checksum bytes `[124, 128)` no longer
match the unchanged payload); a modified header is never silently accepted.
`Hcrc` is the single-byte-error-detection property of CRC32-IEEE. -/
theorem header_tamper_detected (crc32F : List Byte → Nat)
    (sha256F : List Byte → List Byte) (h : Header)
    (hsalt : h.salt.length = 32) (hnonce : h.nonce.length = 16)
    (hih : h.integrityHash.length = 32) (hat : h.authTag.length = 32)
    (Hcrc : ∀ (l : List Byte) (j : Nat) (b : Byte), l.length = 120 → j < 120 →
      l[j]? ≠ some b →
      beBytes ChecksumSize (crc32F (l.set j b)) ≠ beBytes ChecksumSize (crc32F l))
    (i : Nat) (b' : Byte) (hi4 : 4 ≤ i) (hi127 : i ≤ 127)
    (hdiff : (h.marshal crc32F)[i]? ≠ some b') :
    ∃ e, unmarshal crc32F sha256F ((h.marshal crc32F).set i b') = .error e ∧
      (e = Err.checksumMismatch ∨ e = Err.tampering ∨ e = Err.authFailure ∨
        e = Err.invalidMagic) := by
  set cover := crcCover h with hcoverDef
  set crcB := beBytes ChecksumSize (crc32F cover) with hcrcBDef
  have hform : h.marshal crc32F = MagicBytes ++ (cover ++ crcB) :=
    marshal_eq crc32F h
  have hcoverLen : cover.length = 120 := crcCover_length h hsalt hnonce hih hat
  have hcrcBLen : crcB.length = 4 := length_beBytes _ _
  have hms : MagicBytes.length = 4 := rfl
  refine ⟨.checksumMismatch, ?_, Or.inl rfl⟩
  by_cases hcase : i < 124
  · -- the modified byte lies in the CRC-covered region [4, 124)
    have hset : (h.marshal crc32F).set i b'
        = MagicBytes ++ (cover.set (i - 4) b' ++ crcB) := by
      rw [hform, List.set_append_right _ _ (by rw [hms]; omega)]
      congr 1
      rw [hms]
      exact List.set_append_left _ _ (by omega)
    have hdiff' : cover[i - 4]? ≠ some b' := by
      intro hc
      apply hdiff
      rw [hform, List.getElem?_append, if_neg (by rw [hms]; omega), hms,
        List.getElem?_append, if_pos (by omega)]
      exact hc
    rw [hset]
    exact unmarshal_checksum_fail crc32F sha256F _ crcB
      (by rw [List.length_set]; exact hcoverLen) hcrcBLen
      (Ne.symm (Hcrc cover (i - 4) b' hcoverLen (by omega) hdiff'))
  · -- the modified byte lies in the stored checksum [124, 128)
    have hset : (h.marshal crc32F).set i b'
        = MagicBytes ++ (cover ++ crcB.set (i - 124) b') := by
      rw [hform, List.set_append_right _ _ (by rw [hms]; omega)]
      congr 1
      rw [hms]
      rw [List.set_append_right _ _ (by rw [hcoverLen]; omega), hcoverLen]
      rw [show i - 4 - 120 = i - 124 from by omega]
    have hdiff' : crcB[i - 124]? ≠ some b' := by
      intro hc
      apply hdiff
      rw [hform, List.getElem?_append, if_neg (by rw [hms]; omega), hms,
        List.getElem?_append, if_neg (by omega), hcoverLen]
      rw [show i - 4 - 120 = i - 124 from by omega]
      exact hc
    have hmm : crcB.set (i - 124) b' ≠ beBytes ChecksumSize (crc32F cover) := by
      intro heq
      apply hdiff'
      have hself : (crcB.set (i - 124) b')[i - 124]? = some b' := by
        rw [List.getElem?_set_self']
        have : i - 124 < crcB.length := by omega
        simp [List.length_set, this]
      rw [← hcrcBDef] at heq
      rw [← heq]
      exact hself
    rw [hset]
    exact unmarshal_checksum_fail crc32F sha256F cover _ hcoverLen
      (by rw [List.length_set]; exact hcrcBLen) hmm

/-- A stand-in checksum used to instantiate the CRC32 parameter in
witnesses: the byte sum.  On 120-byte inputs it detects every single-byte
modification, the only property the tampering theorem consumes. -/
def sumCrc (l : List Byte) : Nat := (l.map Fin.val).sum

theorem byteSum_le (l : List Byte) : (l.map Fin.val).sum ≤ 255 * l.length := by
  induction l with
  | nil => simp
  | cons b rest ih =>
    have hb : b.val ≤ 255 := by omega
    have hexp : 255 * (rest.length + 1) = 255 * rest.length + 255 := by ring
    simp only [List.map_cons, List.sum_cons, List.length_cons, hexp]
    omega

theorem sumCrc_detects (l : List Byte) (j : Nat) (b : Byte)
    (hl : l.length = 120) (hj : j < 120) (hdiff : l[j]? ≠ some b) :
    beBytes ChecksumSize (sumCrc (l.set j b))
      ≠ beBytes ChecksumSize (sumCrc l) := by
  intro heq
  have hjl : j < l.length := by omega
  obtain ⟨ob, hob⟩ : ∃ ob, l[j]? = some ob := ⟨_, List.getElem?_eq_getElem hjl⟩
  have hbne : b ≠ ob := by
    intro hbe
    exact hdiff (by rw [hob, hbe])
  have hdec : l.take j ++ ob :: l.drop (j + 1) = l := by
    have h1 : l.take (j + 1) ++ l.drop (j + 1) = l := List.take_append_drop _ _
    have h2 : l.take (j + 1) = l.take j ++ [ob] := by
      rw [List.take_succ, hob]
      simp
    rw [h2] at h1
    simpa using h1
  have hsetDec : l.set j b = l.take j ++ b :: l.drop (j + 1) := by
    rw [List.set_eq_take_append_cons_drop, if_pos hjl]
  have hsum1 : sumCrc l
      = ((l.take j).map Fin.val).sum + (ob.val + ((l.drop (j + 1)).map Fin.val).sum) := by
    conv_lhs => rw [sumCrc, ← hdec]
    simp
  have hsum2 : sumCrc (l.set j b)
      = ((l.take j).map Fin.val).sum + (b.val + ((l.drop (j + 1)).map Fin.val).sum) := by
    rw [sumCrc, hsetDec]
    simp
  have hb1 : sumCrc l ≤ 255 * 120 := by
    have := byteSum_le l
    rw [hl] at this
    exact this
  have hb2 : sumCrc (l.set j b) ≤ 255 * 120 := by
    have := byteSum_le (l.set j b)
    rw [List.length_set, hl] at this
    exact this
  have hval := congrArg beVal heq
  rw [beVal_beBytes, beVal_beBytes] at hval
  have hsmall : (255 * 120 : Nat) < 256 ^ ChecksumSize := by norm_num [ChecksumSize]
  rw [Nat.mod_eq_of_lt (by omega), Nat.mod_eq_of_lt (by omega)] at hval
  rw [hsum1, hsum2] at hval
  have hvv : b.val = ob.val := by omega
  exact hbne (Fin.val_injective hvv)

/-- Claim C6 witness: the header round trip evaluated at a concrete
non-weak salt, size 77, key `[5]` and a concrete nonce, with stand-ins for
SHA-256, HMAC and CRC32. -/
theorem header_roundtrip_witness :
    ∃ h, HeaderNew (fun _ => List.replicate 32 1) (fun _ _ => List.replicate 32 2)
        [0, 0, 0, 0, 0, 0, 0, 1, 0, 0, 0, 0, 0, 0, 0, 0,
          0, 0, 0, 0, 0, 0, 0, 0, 0, 0, 0, 0, 0, 0, 0, 0] 77 [5]
        (List.replicate 16 6) = .ok h ∧
      h.salt = [0, 0, 0, 0, 0, 0, 0, 1, 0, 0, 0, 0, 0, 0, 0, 0,
        0, 0, 0, 0, 0, 0, 0, 0, 0, 0, 0, 0, 0, 0, 0, 0] ∧
      h.originalSize = 77 ∧ h.nonce = List.replicate 16 6 ∧
      unmarshal sumCrc (fun _ => List.replicate 32 1) (h.marshal sumCrc) = .ok h :=
  header_roundtrip (fun _ => List.replicate 32 1) (fun _ _ => List.replicate 32 2)
    sumCrc
    [0, 0, 0, 0, 0, 0, 0, 1, 0, 0, 0, 0, 0, 0, 0, 0,
      0, 0, 0, 0, 0, 0, 0, 0, 0, 0, 0, 0, 0, 0, 0, 0]
    (List.replicate 16 6) [5] 77
    (by decide)
    (by simp [isWeakSalt, repeatsFrom, bytesEqual, SaltSize]; decide)
    (by decide) (by decide) (by norm_num)
    (fun x => by simp) (fun k x => by simp)

set_option maxRecDepth 10000 in
/-- Claim C7 witness: tampering detection applied to byte 4 of the
serialisation of a concrete header, with the byte-sum checksum stand-in. -/
theorem header_tamper_detected_witness :
    ∃ e, unmarshal sumCrc (fun _ => List.replicate 32 1)
        ((Header.marshal sumCrc
            ⟨List.replicate 32 5, 3, List.replicate 16 6,
              List.replicate 32 7, List.replicate 32 8⟩).set 4 9) = .error e ∧
      (e = Err.checksumMismatch ∨ e = Err.tampering ∨ e = Err.authFailure ∨
        e = Err.invalidMagic) :=
  header_tamper_detected sumCrc (fun _ => List.replicate 32 1)
    ⟨List.replicate 32 5, 3, List.replicate 16 6,
      List.replicate 32 7, List.replicate 32 8⟩
    (by decide) (by decide) (by decide) (by decide)
    sumCrc_detects 4 9 (by decide) (by decide) (by decide)

/-! ## The reorder buffer and the writer stage
(`internal/data/streaming/buffer.go` `Buffer.Add` / `Buffer.Flush`,
`StreamProcessor.writeResults` in `src/unnamed/part_015`)

The Go `map[uint64]TaskResult` is modelled as an association list with map
semantics: assignment replaces any entry with the same key, lookup finds
the unique entry.  A task result is the pair (index, data). -/

def mapErase (k : Nat) (m : List (Nat × List Byte)) : List (Nat × List Byte) :=
  m.filter (fun e => e.1 ≠ k)

def mapInsert (k : Nat) (v : List Byte) (m : List (Nat × List Byte)) :
    List (Nat × List Byte) :=
  (k, v) :: mapErase k m

/-- Go map lookup: the unique entry with the given key, if any.  (With the
map-semantics `mapInsert`, at most one entry per key ever exists.) -/
def mapLookup (k : Nat) : List (Nat × List Byte) → Option (List Byte)
  | [] => none
  | e :: rest => if e.1 = k then some e.2 else mapLookup k rest

theorem mapLookup_erase (j k : Nat) (m : List (Nat × List Byte)) :
    mapLookup j (mapErase k m) = if j = k then none else mapLookup j m := by
  induction m with
  | nil => simp [mapLookup, mapErase]
  | cons e rest ih =>
    by_cases hek : e.1 = k
    · have h1 : mapErase k (e :: rest) = mapErase k rest := by
        simp [mapErase, List.filter_cons, hek]
      rw [h1, ih]
      by_cases hjk : j = k
      · simp [hjk]
      · rw [if_neg hjk, if_neg hjk, mapLookup, if_neg (by omega)]
    · have h1 : mapErase k (e :: rest) = e :: mapErase k rest := by
        simp [mapErase, List.filter_cons, hek]
      rw [h1]
      by_cases hej : e.1 = j
      · by_cases hjk : j = k
        · rw [hjk] at hej
          exact absurd hej hek
        · rw [mapLookup, if_pos hej, if_neg hjk, mapLookup, if_pos hej]
      · rw [mapLookup, if_neg hej, ih]
        by_cases hjk : j = k
        · simp [hjk]
        · rw [if_neg hjk, if_neg hjk, mapLookup, if_neg hej]

theorem mapLookup_insert (j k : Nat) (v : List Byte)
    (m : List (Nat × List Byte)) :
    mapLookup j (mapInsert k v m) = if j = k then some v else mapLookup j m := by
  by_cases hjk : j = k
  · rw [mapInsert, mapLookup, if_pos (by omega), if_pos hjk]
  · rw [mapInsert, mapLookup, if_neg (by omega), mapLookup_erase,
      if_neg hjk, if_neg hjk]

theorem mapErase_length_lt (k : Nat) (m : List (Nat × List Byte))
    (h : mapLookup k m ≠ none) : (mapErase k m).length < m.length := by
  induction m with
  | nil =>
    rw [mapLookup] at h
    exact absurd rfl h
  | cons e rest ih =>
    by_cases hek : e.1 = k
    · have h1 : mapErase k (e :: rest) = mapErase k rest := by
        simp [mapErase, List.filter_cons, hek]
      rw [h1, List.length_cons]
      have hle : (mapErase k rest).length ≤ rest.length :=
        List.length_filter_le _ _
      omega
    · have h1 : mapErase k (e :: rest) = e :: mapErase k rest := by
        simp [mapErase, List.filter_cons, hek]
      rw [mapLookup, if_neg hek] at h
      rw [h1, List.length_cons, List.length_cons]
      exact Nat.succ_lt_succ (ih h)

structure Buffer where
  results : List (Nat × List Byte)
  next : Nat

def NewBuffer : Buffer := ⟨[], 0⟩

/-- The emission loop of `Buffer.Add`: `for { if result, ok := results[next];
ok { emit; delete; next++ } else break }`. Returns (ready, results, next). -/
def drainLoop (m : List (Nat × List Byte)) (next : Nat) :
    List (Nat × List Byte) × List (Nat × List Byte) × Nat :=
  match h : mapLookup next m with
  | some v =>
    let rest := drainLoop (mapErase next m) (next + 1)
    ((next, v) :: rest.1, rest.2)
  | none => ([], m, next)
termination_by m.length
decreasing_by exact mapErase_length_lt next m (by simp [h])

/-- `Buffer.Add`: store the result under its index, then emit the ready
run in order. -/
def Buffer.Add (b : Buffer) (idx : Nat) (data : List Byte) :
    List (Nat × List Byte) × Buffer :=
  let d := drainLoop (mapInsert idx data b.results) b.next
  (d.1, ⟨d.2.1, d.2.2⟩)

def insertSorted (x : Nat) : List Nat → List Nat
  | [] => [x]
  | y :: ys => if x ≤ y then x :: y :: ys else y :: insertSorted x ys

def sortNat (l : List Nat) : List Nat := l.foldr insertSorted []

/-- `Buffer.Flush`: the remaining buffered results sorted by index. -/
def Buffer.Flush (b : Buffer) : List (Nat × List Byte) :=
  (sortNat (b.results.map Prod.fst)).map
    (fun i => (i, (mapLookup i b.results).getD []))

/-- One delivery step of `writeResults`: `Add` to the buffer and append the
ready run to the written output. -/
def writeStep (st : Buffer × List (Nat × List Byte)) (r : Nat × List Byte) :
    Buffer × List (Nat × List Byte) :=
  let d := st.1.Add r.1 r.2
  (d.2, st.2 ++ d.1)

/-- `writeResults`: consume the delivered results in arrival order through
the reorder buffer, then flush the remainder; returns the emission order. -/
def runWriter (delivered : List (Nat × List Byte)) : List (Nat × List Byte) :=
  let fin := delivered.foldl writeStep (NewBuffer, [])
  fin.2 ++ fin.1.Flush

def ChunkHeaderSize : Nat := 4

/-- The writer's on-wire output during encryption: each emitted chunk is
prefixed with its 4-byte big-endian length (`writeResult`/`writeChunkSize`). -/
def writeStream (rs : List (Nat × List Byte)) : List Byte :=
  (rs.map (fun r => beBytes ChunkHeaderSize r.2.length ++ r.2)).flatten

theorem drainLoop_none (m : List (Nat × List Byte)) (next : Nat)
    (h : mapLookup next m = none) : drainLoop m next = ([], m, next) := by
  rw [drainLoop]
  split
  · rename_i v heq
    rw [h] at heq
    exact Option.noConfusion heq
  · rfl

theorem drainLoop_some (m : List (Nat × List Byte)) (next : Nat) (v : List Byte)
    (h : mapLookup next m = some v) :
    drainLoop m next
      = ((next, v) :: (drainLoop (mapErase next m) (next + 1)).1,
         (drainLoop (mapErase next m) (next + 1)).2) := by
  rw [drainLoop]
  split
  · rename_i w heq
    rw [h] at heq
    cases heq
    rfl
  · rename_i heq
    rw [h] at heq
    exact Option.noConfusion heq

theorem drainLoop_spec (f : Nat → List Byte) :
    ∀ (fuel : Nat) (m : List (Nat × List Byte)) (next : Nat) (T : List Nat),
    m.length ≤ fuel →
    (∀ j, mapLookup j m = if j ∈ T ∧ next ≤ j then some (f j) else none) →
    ∃ next' m', next ≤ next' ∧
      drainLoop m next
        = ((List.range' next (next' - next)).map (fun i => (i, f i)), m', next') ∧
      (∀ j, mapLookup j m' = if j ∈ T ∧ next' ≤ j then some (f j) else none) ∧
      (∀ i, next ≤ i → i < next' → i ∈ T) ∧ next' ∉ T := by
  intro fuel
  induction fuel with
  | zero =>
    intro m next T hlen hchar
    have hm : m = [] := List.length_eq_zero.mp (by omega)
    subst hm
    have hnone : mapLookup next ([] : List (Nat × List Byte)) = none := rfl
    refine ⟨next, [], le_refl _, ?_, hchar, by omega, ?_⟩
    · rw [drainLoop_none _ _ hnone]
      simp
    · intro hmem
      have := hchar next
      rw [if_pos ⟨hmem, le_refl _⟩] at this
      exact Option.noConfusion this
  | succ fuel ih =>
    intro m next T hlen hchar
    rcases hl : mapLookup next m with _ | v
    · refine ⟨next, m, le_refl _, ?_, hchar, by omega, ?_⟩
      · rw [drainLoop_none _ _ hl]
        simp
      · intro hmem
        have := hchar next
        rw [if_pos ⟨hmem, le_refl _⟩, hl] at this
        exact Option.noConfusion this
    · have hco := hchar next
      rw [hl] at hco
      have hmemT : next ∈ T ∧ v = f next := by
        by_cases hmem : next ∈ T ∧ next ≤ next
        · rw [if_pos hmem] at hco
          exact ⟨hmem.1, by injection hco⟩
        · rw [if_neg hmem] at hco
          exact Option.noConfusion hco
      have hchar'' : ∀ j, mapLookup j (mapErase next m)
          = if j ∈ T ∧ next + 1 ≤ j then some (f j) else none := by
        intro j
        rw [mapLookup_erase]
        by_cases hj : j = next
        · rw [if_pos hj, if_neg (by omega)]
        · rw [if_neg hj, hchar j]
          by_cases hjg : next + 1 ≤ j
          · have hjg' : next ≤ j := by omega
            by_cases hjT : j ∈ T
            · rw [if_pos ⟨hjT, hjg'⟩, if_pos ⟨hjT, hjg⟩]
            · rw [if_neg (by intro hc; exact hjT hc.1),
                if_neg (by intro hc; exact hjT hc.1)]
          · rw [if_neg (by intro hc; omega), if_neg (by intro hc; exact hjg hc.2)]
      have hlen'' : (mapErase next m).length ≤ fuel := by
        have := mapErase_length_lt next m (by simp [hl])
        omega
      obtain ⟨next', m', hle, heq, hchar', hint, hnotT⟩ :=
        ih (mapErase next m) (next + 1) T hlen'' hchar''
      refine ⟨next', m', by omega, ?_, hchar', ?_, hnotT⟩
      · rw [drainLoop_some m next v hl, heq]
        have hrange : List.range' next (next' - next)
            = next :: List.range' (next + 1) (next' - (next + 1)) := by
          rw [show next' - next = (next' - (next + 1)) + 1 from by omega]
          exact List.range'_succ next _ 1
        rw [hrange]
        simp [hmemT.2]
      · intro i h1 h2
        by_cases hi : i = next
        · rw [hi]
          exact hmemT.1
        · exact hint i (by omega) h2

/-- The writer invariant: `S` is the set of indices delivered so far;
the buffer holds exactly the delivered results with index ≥ `next`, the
output is the delivered, already-emitted prefix `0, …, next-1` in order,
every index below `next` has been delivered, and `next` itself has not. -/
def WInv (f : Nat → List Byte) (S : List Nat) (b : Buffer)
    (out : List (Nat × List Byte)) : Prop :=
  (∀ j, mapLookup j b.results = if j ∈ S ∧ b.next ≤ j then some (f j) else none) ∧
  out = (List.range b.next).map (fun i => (i, f i)) ∧
  (∀ i, i < b.next → i ∈ S) ∧ b.next ∉ S

theorem winv_init (f : Nat → List Byte) : WInv f [] NewBuffer [] := by
  refine ⟨?_, by simp [NewBuffer], ?_, by simp [NewBuffer]⟩
  · intro j
    rw [if_neg (by intro hc; exact absurd hc.1 (List.not_mem_nil j))]
    rfl
  · intro i hi
    exact absurd hi (by simp [NewBuffer])

theorem winv_step (f : Nat → List Byte) (S : List Nat) (b : Buffer)
    (out : List (Nat × List Byte)) (k : Nat)
    (hInv : WInv f S b out) (hk : k ∉ S) :
    WInv f (k :: S) (b.Add k (f k)).2 (out ++ (b.Add k (f k)).1) := by
  obtain ⟨hchar, hout, hbelow, hnot⟩ := hInv
  have hknext : b.next ≤ k := by
    by_cases hlt : k < b.next
    · exact absurd (hbelow k hlt) hk
    · omega
  have hcharIns : ∀ j, mapLookup j (mapInsert k (f k) b.results)
      = if j ∈ k :: S ∧ b.next ≤ j then some (f j) else none := by
    intro j
    rw [mapLookup_insert]
    by_cases hj : j = k
    · rw [if_pos hj, if_pos ⟨by rw [hj]; exact List.mem_cons_self k S, by omega⟩, hj]
    · rw [if_neg hj, hchar j]
      by_cases hc : j ∈ S ∧ b.next ≤ j
      · rw [if_pos hc, if_pos ⟨List.mem_cons_of_mem k hc.1, hc.2⟩]
      · rw [if_neg hc, if_neg ?hc2]
        case hc2 =>
          intro hc2
          apply hc
          rcases List.mem_cons.mp hc2.1 with h1 | h1
          · exact absurd h1 hj
          · exact ⟨h1, hc2.2⟩
  obtain ⟨next', m', hle, heq, hchar', hint, hnotT⟩ :=
    drainLoop_spec f (mapInsert k (f k) b.results).length
      (mapInsert k (f k) b.results) b.next (k :: S) (le_refl _) hcharIns
  have hAdd : b.Add k (f k)
      = ((List.range' b.next (next' - b.next)).map (fun i => (i, f i)),
         ⟨m', next'⟩) := by
    rw [Buffer.Add, heq]
  rw [hAdd]
  refine ⟨hchar', ?_, ?_, hnotT⟩
  · rw [hout]
    show (List.range b.next).map (fun i => (i, f i)) ++
      (List.range' b.next (next' - b.next)).map (fun i => (i, f i))
      = (List.range next').map (fun i => (i, f i))
    rw [← List.map_append]
    congr 1
    rw [List.range_eq_range', List.range_eq_range']
    have := List.range'_append 0 b.next (next' - b.next) 1
    simp only [Nat.one_mul, Nat.zero_add] at this
    rw [this]
    congr 1
    omega
  · intro i hi
    by_cases hlt : i < b.next
    · exact List.mem_cons_of_mem k (hbelow i hlt)
    · exact hint i (by omega) hi

theorem winv_run (f : Nat → List Byte) :
    ∀ (todo : List (Nat × List Byte)) (S : List Nat) (b : Buffer)
      (out : List (Nat × List Byte)),
    WInv f S b out →
    (∀ e ∈ todo, e.2 = f e.1) →
    (todo.map Prod.fst).Nodup →
    (∀ x ∈ todo.map Prod.fst, x ∉ S) →
    ∃ S', (∀ x, x ∈ S' ↔ x ∈ todo.map Prod.fst ∨ x ∈ S) ∧
      WInv f S' (todo.foldl writeStep (b, out)).1
        (todo.foldl writeStep (b, out)).2 := by
  intro todo
  induction todo with
  | nil =>
    intro S b out hInv _ _ _
    exact ⟨S, by simp, hInv⟩
  | cons r rest ih =>
    intro S b out hInv hcanon hnodup hfresh
    have hr : r.2 = f r.1 := hcanon r (by simp)
    have hrS : r.1 ∉ S := hfresh r.1 (by simp)
    have hstep := winv_step f S b out r.1 hInv hrS
    have hws : writeStep (b, out) r
        = ((b.Add r.1 (f r.1)).2, out ++ (b.Add r.1 (f r.1)).1) := by
      rw [writeStep, hr]
    obtain ⟨S', hS', hInv'⟩ := ih (r.1 :: S) (b.Add r.1 (f r.1)).2
      (out ++ (b.Add r.1 (f r.1)).1) hstep
      (fun e he => hcanon e (by simp [he]))
      (by
        rw [List.map_cons] at hnodup
        exact hnodup.of_cons)
      (by
        intro x hx
        rw [List.map_cons] at hnodup
        intro hmem
        rcases List.mem_cons.mp hmem with h1 | h1
        · rw [h1] at hx
          exact (List.nodup_cons.mp hnodup).1 hx
        · exact hfresh x (by simp [hx]) h1)
    refine ⟨S', ?_, ?_⟩
    · intro x
      rw [hS' x]
      simp [List.mem_cons, or_assoc]
      tauto
    · rw [List.foldl_cons, hws]
      exact hInv'

theorem results_empty_of_lookup_none (m : List (Nat × List Byte))
    (h : ∀ j, mapLookup j m = none) : m = [] := by
  cases m with
  | nil => rfl
  | cons e rest =>
    have := h e.1
    rw [mapLookup, if_pos rfl] at this
    exact Option.noConfusion this

/-- Claim C10: for every `n` and every permutation of the task results with
indices `0…n-1` delivered to the writer, the writer emits the chunks in
strict index order `0, 1, …, n-1` (never index `i` before `i-1`), so the
emitted sequence — and hence the length-prefixed output byte stream —
equals the serial-execution output. -/
theorem writer_order_preserved (f : Nat → List Byte) (n : Nat)
    (perm : List (Nat × List Byte))
    (hperm : perm.Perm ((List.range n).map (fun i => (i, f i)))) :
    runWriter perm = (List.range n).map (fun i => (i, f i)) ∧
    writeStream (runWriter perm)
      = writeStream ((List.range n).map (fun i => (i, f i))) := by
  have hmem : ∀ e ∈ perm, e.2 = f e.1 := by
    intro e he
    have := hperm.mem_iff.mp he
    obtain ⟨i, _, rfl⟩ := List.mem_map.mp this
    rfl
  have hkeys : (perm.map Prod.fst).Perm (List.range n) := by
    have hmapped := hperm.map Prod.fst
    have hid : ((List.range n).map (fun i => (i, f i))).map Prod.fst
        = List.range n := by
      rw [List.map_map]
      exact List.map_id _
    rw [hid] at hmapped
    exact hmapped
  have hnodup : (perm.map Prod.fst).Nodup :=
    hkeys.nodup_iff.mpr (List.nodup_range n)
  obtain ⟨S', hS', hInv⟩ := winv_run f perm [] NewBuffer [] (winv_init f)
    hmem hnodup (by intro x _ hc; exact absurd hc (List.not_mem_nil x))
  obtain ⟨hchar, hout, hbelow, hnot⟩ := hInv
  have hSmem : ∀ x, x ∈ S' ↔ x < n := by
    intro x
    rw [hS' x]
    constructor
    · intro hx
      rcases hx with hx | hx
      · have := hkeys.mem_iff.mp hx
        exact List.mem_range.mp this
      · exact absurd hx (List.not_mem_nil x)
    · intro hx
      exact Or.inl (hkeys.mem_iff.mpr (List.mem_range.mpr hx))
  set st := perm.foldl writeStep (NewBuffer, []) with hst
  have hnextub : st.1.next ≤ n := by
    by_cases hlt : n < st.1.next
    · have := hbelow n hlt
      rw [hSmem n] at this
      omega
    · omega
  have hnextlb : n ≤ st.1.next := by
    by_cases hlt : st.1.next < n
    · have := hnot
      rw [hSmem st.1.next] at this
      exact absurd hlt this
    · omega
  have hnexteq : st.1.next = n := by omega
  have hempt : st.1.results = [] := by
    apply results_empty_of_lookup_none
    intro j
    rw [hchar j, if_neg]
    intro hc
    rw [hSmem j] at hc
    omega
  have hflush : st.1.Flush = [] := by
    rw [Buffer.Flush, hempt]
    rfl
  constructor
  · rw [runWriter, ← hst, hflush, List.append_nil, hout, hnexteq]
  · rw [runWriter, ← hst, hflush, List.append_nil, hout, hnexteq]

/-- Claim C10 witness: the writer applied to a concrete out-of-order
delivery of three indexed chunks. -/
theorem writer_order_preserved_witness :
    runWriter [(2, [7, 7, 7]), (0, [7]), (1, [7, 7])]
      = (List.range 3).map (fun i => (i, List.replicate (i + 1) 7)) ∧
    writeStream (runWriter [(2, [7, 7, 7]), (0, [7]), (1, [7, 7])])
      = writeStream ((List.range 3).map
          (fun i => (i, List.replicate (i + 1) 7))) := by
  have h := writer_order_preserved (fun i => List.replicate (i + 1) 7) 3
    [(2, [7, 7, 7]), (0, [7]), (1, [7, 7])] (by decide)
  exact h

theorem unpad_pad_ps (B : List Byte) :
    Padder.Unpad PaddingSize (Padder.Pad PaddingSize B) = .ok B :=
  (pad_unpad_aux B).2.2.2.2

theorem chunk_roundtrip_aux (deflate : List Byte → List Byte)
    (inflate : List Byte → Option (List Byte))
    (sealFn : List Byte → List Byte → List Byte)
    (aeadOpen : List Byte → List Byte → Option (List Byte))
    (parity : List (List Byte) → List (List Byte)) (nonce chunk : List Byte)
    (Hgz : ∀ x, inflate (deflate x) = some x)
    (Hgzne : ∀ x, x ≠ [] → deflate x ≠ [])
    (Hn : nonce.length = GCMNonceSize)
    (Hs : ∀ nn p, (sealFn nn p).length = p.length + GCMTagSize)
    (Hopen : ∀ nn p, aeadOpen nn (sealFn nn p) = some p)
    (Hpar : ∀ ds L, ds ≠ [] → (∀ sh ∈ ds, sh.length = L) →
      (parity ds).length = ParityShards ∧ ∀ sh ∈ parity ds, sh.length = L)
    (Hbound : chunk.length ≤ MaxDecompressionSize)
    (HgzB : (deflate chunk).length + 44 ≤ MaxDataLen) :
    ∃ v, Processor.Encrypt deflate sealFn parity nonce chunk = .ok v ∧
      Processor.Decrypt inflate aeadOpen v = .ok chunk ∧
      1 ≤ v.length ∧ v.length ≤ 4 * (deflate chunk).length + 154 := by
  -- the compressed bytes actually fed to the padder
  have hmain : ∀ (compressed : List Byte),
      Compressor.Compress deflate chunk = .ok compressed →
      Compressor.Decompress inflate compressed = .ok chunk →
      compressed.length ≤ (deflate chunk).length →
      ∃ v, Processor.Encrypt deflate sealFn parity nonce chunk = .ok v ∧
        Processor.Decrypt inflate aeadOpen v = .ok chunk ∧
        1 ≤ v.length ∧ v.length ≤ 4 * (deflate chunk).length + 154 := by
    intro compressed hcomp hdecomp hclen
    set padded := Padder.Pad PaddingSize compressed with hpaddedDef
    set sealed := nonce ++ sealFn nonce padded with hsealedDef
    have hPadMod : padded.length % 16 = 0 := padded_mod16 compressed
    have hPadLen : padded.length = compressed.length +
        (16 - compressed.length % 16) := by
      rw [hpaddedDef, pad_length]
      rfl
    have hPadPos : 1 ≤ padded.length := by
      have : compressed.length % 16 < 16 := Nat.mod_lt _ (by norm_num)
      omega
    have hSealLen : sealed.length = padded.length + 28 :=
      sealed_length sealFn nonce padded Hn (Hs nonce padded)
    have h4 : sealed.length % 4 = 0 := by omega
    have h1 : 1 ≤ sealed.length := by omega
    have h2 : sealed.length ≤ MaxDataLen := by
      have : compressed.length % 16 < 16 := Nat.mod_lt _ (by norm_num)
      omega
    obtain ⟨v, hEnc, hvLen, hDec⟩ := encode_decode_exact parity Hpar sealed h4 h1 h2
    have hAES : AESCipher.Encrypt sealFn nonce padded = .ok sealed := by
      rw [AESCipher.Encrypt, if_neg (by omega)]
    have hEnc' : Processor.Encrypt deflate sealFn parity nonce chunk = .ok v := by
      simp only [Processor.Encrypt]
      rw [hcomp]
      show (AESCipher.Encrypt sealFn nonce (Padder.Pad PaddingSize compressed) >>=
        fun encrypted => defaultEncoder.Encode parity encrypted) = .ok v
      rw [hAES]
      exact hEnc
    have hAESDec : AESCipher.Decrypt aeadOpen sealed = .ok padded := by
      rw [AESCipher.Decrypt, if_neg (by omega), if_neg (by
        show ¬ sealed.length < GCMNonceSize
        show ¬ sealed.length < 12
        omega)]
      rw [hsealedDef, List.take_left' Hn, List.drop_left' Hn, Hopen]
    have hDec' : Processor.Decrypt inflate aeadOpen v = .ok chunk := by
      simp only [Processor.Decrypt]
      rw [hDec]
      show (AESCipher.Decrypt aeadOpen sealed >>= fun decrypted =>
        (Padder.Unpad PaddingSize decrypted >>= Compressor.Decompress inflate))
        = .ok chunk
      rw [hAESDec]
      show (Padder.Unpad PaddingSize (Padder.Pad PaddingSize compressed) >>=
        Compressor.Decompress inflate) = .ok chunk
      rw [unpad_pad_ps]
      show Compressor.Decompress inflate compressed = .ok chunk
      exact hdecomp
    refine ⟨v, hEnc', hDec', ?_, ?_⟩
    · rw [hvLen]
      omega
    · rw [hvLen]
      have : compressed.length % 16 < 16 := Nat.mod_lt _ (by norm_num)
      omega
  by_cases hempty : chunk.length = 0
  · have hnil : chunk = [] := List.length_eq_zero.mp hempty
    apply hmain chunk
    · rw [Compressor.Compress, if_pos hempty]
    · rw [Compressor.Decompress, if_pos hempty, hnil]
    · rw [hnil]
      exact Nat.zero_le _
  · apply hmain (deflate chunk)
    · rw [Compressor.Compress, if_neg hempty]
    · rw [Compressor.Decompress, if_neg ?hens]
      case hens =>
        have := Hgzne chunk (by
          intro hc
          rw [hc] at hempty
          exact hempty rfl)
        simpa [List.length_eq_zero] using this
      rw [Hgz chunk]
      show Except.ok (chunk.take MaxDecompressionSize) = Except.ok chunk
      rw [List.take_of_length_le Hbound]
    · exact le_refl _

/-! ## The streaming file round trip (`StreamProcessor` in
`src/unnamed/part_015`)

Encryption reads the plaintext in chunks of up to `DefaultChunkSize`
(`readForEncryption`), pipelines each chunk, and the writer emits each
encoded chunk with a 4-byte big-endian length prefix (`writeResult`).
Decryption reads the length-prefixed records back (`readForDecryption`,
skipping zero-length records and rejecting lengths above `math.MaxInt32`)
and pipelines each through `Processor.Decrypt`.  The writer's in-order
emission is proved separately (claim C10); here the stream is composed in
serial order. -/

def DefaultChunkSize : Nat := 2 ^ 20

/-- `readForEncryption`: successive reads of up to `csize` bytes. -/
def chunkify (csize : Nat) (d : List Byte) : List (List Byte) :=
  if d.length = 0 then []
  else if csize = 0 then []
  else d.take csize :: chunkify csize (d.drop csize)
termination_by d.length
decreasing_by
  rw [List.length_drop]
  omega

theorem chunkify_flatten (csize : Nat) (hcs : 1 ≤ csize) (d : List Byte) :
    (chunkify csize d).flatten = d := by
  have main : ∀ n (d : List Byte), d.length ≤ n →
      (chunkify csize d).flatten = d := by
    intro n
    induction n with
    | zero =>
      intro d hd
      have : d = [] := List.length_eq_zero.mp (by omega)
      subst this
      rw [chunkify]
      simp
    | succ n ih =>
      intro d hd
      by_cases hd0 : d.length = 0
      · have : d = [] := List.length_eq_zero.mp hd0
        subst this
        rw [chunkify]
        simp
      · rw [chunkify, if_neg hd0, if_neg (by omega)]
        rw [List.flatten_cons]
        rw [ih (d.drop csize) (by rw [List.length_drop]; omega)]
        exact List.take_append_drop csize d
  exact main d.length d (le_refl _)

theorem chunkify_mem (csize : Nat) (hcs : 1 ≤ csize) (d : List Byte) :
    ∀ c ∈ chunkify csize d, c ≠ [] ∧ c.length ≤ csize := by
  have main : ∀ n (d : List Byte), d.length ≤ n →
      ∀ c ∈ chunkify csize d, c ≠ [] ∧ c.length ≤ csize := by
    intro n
    induction n with
    | zero =>
      intro d hd c hc
      have : d = [] := List.length_eq_zero.mp (by omega)
      subst this
      rw [chunkify] at hc
      simp at hc
    | succ n ih =>
      intro d hd c hc
      by_cases hd0 : d.length = 0
      · have : d = [] := List.length_eq_zero.mp hd0
        subst this
        rw [chunkify] at hc
        simp at hc
      · rw [chunkify, if_neg hd0, if_neg (by omega)] at hc
        rcases List.mem_cons.mp hc with h1 | h1
        · subst h1
          constructor
          · intro hnil
            have hln := congrArg List.length hnil
            rw [List.length_take, List.length_nil] at hln
            omega
          · rw [List.length_take]
            omega
        · exact ih (d.drop csize) (by rw [List.length_drop]; omega) c h1
  exact main d.length d (le_refl _)

/-- The length-prefixed chunk records written by the writer stage. -/
def frameChunks (cs : List (List Byte)) : List Byte :=
  (cs.map (fun c => beBytes ChunkHeaderSize c.length ++ c)).flatten

/-- `readForDecryption`: read a 4-byte big-endian length then that many
bytes, until clean EOF; zero lengths are skipped, lengths above
`math.MaxInt32` rejected, short reads fail. -/
def readFramed (s : List Byte) : Except Err (List (List Byte)) :=
  if s.length = 0 then .ok []
  else if s.length < ChunkHeaderSize then .error .incompleteRead
  else
    let chunkLen := beVal (s.take ChunkHeaderSize)
    let rest := s.drop ChunkHeaderSize
    if chunkLen = 0 then readFramed rest
    else if 2 ^ 31 - 1 < chunkLen then .error .chunkTooLarge
    else if rest.length < chunkLen then .error .incompleteRead
    else
      match readFramed (rest.drop chunkLen) with
      | .ok tail => .ok (rest.take chunkLen :: tail)
      | .error e => .error e
termination_by s.length
decreasing_by
  · rw [List.length_drop]
    show s.length - 4 < s.length
    omega
  · rw [List.length_drop, List.length_drop]
    show s.length - 4 - _ < s.length
    omega

theorem readFramed_frame (cs : List (List Byte))
    (h : ∀ c ∈ cs, c ≠ [] ∧ c.length ≤ 2 ^ 31 - 1) :
    readFramed (frameChunks cs) = .ok cs := by
  induction cs with
  | nil =>
    rw [frameChunks]
    rw [readFramed]
    simp
  | cons c rest ih =>
    obtain ⟨hcne, hcle⟩ := h c (by simp)
    have hclen : 1 ≤ c.length := by
      rcases Nat.eq_zero_or_pos c.length with h0 | h1
      · exact absurd (List.length_eq_zero.mp h0) hcne
      · exact h1
    have hform : frameChunks (c :: rest)
        = beBytes ChunkHeaderSize c.length ++ (c ++ frameChunks rest) := by
      rw [frameChunks, List.map_cons, List.flatten_cons, List.append_assoc]
      rfl
    have hbe4 : (beBytes ChunkHeaderSize c.length).length = 4 :=
      length_beBytes _ _
    have hslen : (frameChunks (c :: rest)).length
        = 4 + (c.length + (frameChunks rest).length) := by
      rw [hform]
      simp [hbe4]
    rw [hform]
    rw [readFramed]
    rw [if_neg (by
      rw [← hform, hslen]
      omega)]
    rw [if_neg (by
      rw [← hform, hslen]
      show ¬ 4 + (c.length + (frameChunks rest).length) < ChunkHeaderSize
      show ¬ 4 + (c.length + (frameChunks rest).length) < 4
      omega)]
    have htake4 : (beBytes ChunkHeaderSize c.length ++ (c ++ frameChunks rest)).take
        ChunkHeaderSize = beBytes ChunkHeaderSize c.length :=
      List.take_left' hbe4
    have hdrop4 : (beBytes ChunkHeaderSize c.length ++ (c ++ frameChunks rest)).drop
        ChunkHeaderSize = c ++ frameChunks rest :=
      List.drop_left' hbe4
    rw [htake4, hdrop4]
    have hval : beVal (beBytes ChunkHeaderSize c.length) = c.length := by
      rw [beVal_beBytes]
      exact Nat.mod_eq_of_lt (by
        show c.length < 256 ^ 4
        omega)
    rw [hval]
    rw [if_neg (by omega), if_neg (by omega)]
    rw [if_neg (by
      rw [List.length_append]
      omega)]
    rw [List.take_left' rfl, List.drop_left' rfl]
    rw [ih (fun x hx => h x (by simp [hx]))]

theorem mapM_ok {α β : Type} (fm : α → Except Err β) (g : α → β) (l : List α)
    (h : ∀ a ∈ l, fm a = .ok (g a)) : l.mapM fm = .ok (l.map g) := by
  induction l with
  | nil => rfl
  | cons a rest ih =>
    rw [List.mapM_cons, h a (by simp), ih (fun x hx => h x (by simp [hx]))]
    rfl

/-- `readForEncryption` + worker pipeline, in serial order: one encoded
chunk per plaintext chunk, each sealed under its own fresh nonce. -/
def encryptStream (deflate : List Byte → List Byte)
    (sealFn : List Byte → List Byte → List Byte)
    (parity : List (List Byte) → List (List Byte))
    (nonces : Nat → List Byte) (P : List Byte) :
    Except Err (List (List Byte)) :=
  ((List.range (chunkify DefaultChunkSize P).length).zip
      (chunkify DefaultChunkSize P)).mapM
    (fun t => Processor.Encrypt deflate sealFn parity (nonces t.1) t.2)

/-- `readForDecryption` + worker pipeline + writer, in serial order. -/
def decryptStream (inflate : List Byte → Option (List Byte))
    (aeadOpen : List Byte → List Byte → Option (List Byte))
    (s : List Byte) : Except Err (List Byte) :=
  match readFramed s with
  | .error e => .error e
  | .ok chunks =>
    match chunks.mapM (Processor.Decrypt inflate aeadOpen) with
    | .error e => .error e
    | .ok outs => .ok outs.flatten

theorem zip_map_snd (l1 : List Nat) (l2 : List (List Byte))
    (h : l1.length = l2.length) : (l1.zip l2).map Prod.snd = l2 := by
  induction l1 generalizing l2 with
  | nil =>
    cases l2 with
    | nil => rfl
    | cons b bs => simp at h
  | cons a as ih =>
    cases l2 with
    | nil => simp at h
    | cons b bs =>
      rw [List.zip_cons_cons, List.map_cons]
      rw [ih bs (by simpa using h)]

/-- Claim C1: per-chunk, `Decrypt (Encrypt P) = P` for every chunk
(including the empty chunk) under the same 32-byte key, and lifted over a
whole file cut into `chunkSize` pieces, framed, parsed back and decrypted,
the plaintext is restored byte-for-byte.  The gzip pair, the GCM seal/open
pair for the key `K`, and the Reed-Solomon parity computation enter as
parameters with their library contracts as hypotheses. -/
theorem processor_roundtrip (K : List Byte)
    (sealK : List Byte → List Byte → List Byte → List Byte)
    (openK : List Byte → List Byte → List Byte → Option (List Byte))
    (deflate : List Byte → List Byte) (inflate : List Byte → Option (List Byte))
    (parity : List (List Byte) → List (List Byte))
    (nonces : Nat → List Byte) (P : List Byte)
    (hK : K.length = 32)
    (Hgz : ∀ x, inflate (deflate x) = some x)
    (Hgzne : ∀ x, x ≠ [] → deflate x ≠ [])
    (HgzB : ∀ x, (deflate x).length ≤ 2 * x.length + 1024)
    (Hs : ∀ nn p, (sealK K nn p).length = p.length + GCMTagSize)
    (Hopen : ∀ nn p, openK K nn (sealK K nn p) = some p)
    (Hpar : ∀ ds L, ds ≠ [] → (∀ sh ∈ ds, sh.length = L) →
      (parity ds).length = ParityShards ∧ ∀ sh ∈ parity ds, sh.length = L)
    (Hnonces : ∀ i, (nonces i).length = GCMNonceSize)
    (hP : P.length ≤ 64 * 2 ^ 20) :
    (∀ (chunk : List Byte) (i : Nat), chunk.length ≤ MaxDecompressionSize →
      ∃ v, Processor.Encrypt deflate (sealK K) parity (nonces i) chunk = .ok v ∧
        Processor.Decrypt inflate (openK K) v = .ok chunk) ∧
    ∃ frames, encryptStream deflate (sealK K) parity nonces P = .ok frames ∧
      decryptStream inflate (openK K) (frameChunks frames) = .ok P := by
  have hchunkAll : ∀ (chunk : List Byte) (i : Nat),
      chunk.length ≤ MaxDecompressionSize →
      ∃ v, Processor.Encrypt deflate (sealK K) parity (nonces i) chunk = .ok v ∧
        Processor.Decrypt inflate (openK K) v = .ok chunk ∧
        1 ≤ v.length ∧ v.length ≤ 4 * (deflate chunk).length + 154 := by
    intro chunk i hc
    apply chunk_roundtrip_aux deflate inflate (sealK K) (openK K) parity
      (nonces i) chunk Hgz Hgzne (Hnonces i) Hs Hopen Hpar hc
    have := HgzB chunk
    simp only [MaxDecompressionSize] at hc
    simp only [MaxDataLen]
    omega
  refine ⟨fun chunk i hc => by
    obtain ⟨v, h1, h2, _, _⟩ := hchunkAll chunk i hc
    exact ⟨v, h1, h2⟩, ?_⟩
  set chunks := chunkify DefaultChunkSize P with hchunks
  set pairs := (List.range chunks.length).zip chunks with hpairs
  have hcmem := chunkify_mem DefaultChunkSize (by norm_num [DefaultChunkSize]) P
  have hpmem : ∀ t ∈ pairs, t.2 ∈ chunks := by
    intro t ht
    exact (List.of_mem_zip ht).2
  have hcbound : ∀ t ∈ pairs, t.2.length ≤ MaxDecompressionSize := by
    intro t ht
    have := (hcmem t.2 (hpmem t ht)).2
    simp only [DefaultChunkSize] at this
    simp only [MaxDecompressionSize]
    omega
  -- per-pair encryption and decryption through the deterministic extractor
  have hg : ∀ t ∈ pairs,
      Processor.Encrypt deflate (sealK K) parity (nonces t.1) t.2
        = .ok ((Processor.Encrypt deflate (sealK K) parity (nonces t.1) t.2).toOption.getD []) := by
    intro t ht
    obtain ⟨v, h1, _, _, _⟩ := hchunkAll t.2 t.1 (hcbound t ht)
    rw [h1]
    rfl
  have hencStream : encryptStream deflate (sealK K) parity nonces P
      = .ok (pairs.map (fun t =>
          (Processor.Encrypt deflate (sealK K) parity (nonces t.1) t.2).toOption.getD [])) := by
    rw [encryptStream]
    exact mapM_ok _ _ pairs hg
  set frames := pairs.map (fun t =>
    (Processor.Encrypt deflate (sealK K) parity (nonces t.1) t.2).toOption.getD [])
    with hframes
  have hframeFacts : ∀ fr ∈ frames, fr ≠ [] ∧ fr.length ≤ 2 ^ 31 - 1 := by
    intro fr hfr
    obtain ⟨t, ht, rfl⟩ := List.mem_map.mp hfr
    obtain ⟨v, h1, _, hv1, hv2⟩ := hchunkAll t.2 t.1 (hcbound t ht)
    rw [h1]
    have hdb := HgzB t.2
    have hcb := hcbound t ht
    simp only [MaxDecompressionSize] at hcb
    constructor
    · show v ≠ []
      intro hnil
      rw [hnil] at hv1
      simp at hv1
    · show v.length ≤ 2 ^ 31 - 1
      omega
  have hread : readFramed (frameChunks frames) = .ok frames :=
    readFramed_frame frames hframeFacts
  have hD : ∀ fr ∈ frames, Processor.Decrypt inflate (openK K) fr
      = .ok ((Processor.Decrypt inflate (openK K) fr).toOption.getD []) := by
    intro fr hfr
    obtain ⟨t, ht, rfl⟩ := List.mem_map.mp hfr
    obtain ⟨v, h1, h2, _, _⟩ := hchunkAll t.2 t.1 (hcbound t ht)
    have hfre : (Processor.Encrypt deflate (sealK K) parity
        (nonces t.1) t.2).toOption.getD [] = v := by
      rw [h1]
      rfl
    rw [hfre, h2]
    rfl
  have hmapM : frames.mapM (Processor.Decrypt inflate (openK K))
      = .ok (frames.map (fun fr =>
          (Processor.Decrypt inflate (openK K) fr).toOption.getD [])) :=
    mapM_ok _ _ frames hD
  have hback : frames.map (fun fr =>
      (Processor.Decrypt inflate (openK K) fr).toOption.getD []) = chunks := by
    rw [hframes, List.map_map]
    have hpt : ∀ t ∈ pairs,
        ((fun fr => (Processor.Decrypt inflate (openK K) fr).toOption.getD []) ∘
          (fun t => (Processor.Encrypt deflate (sealK K) parity
            (nonces t.1) t.2).toOption.getD [])) t = Prod.snd t := by
      intro t ht
      obtain ⟨v, h1, h2, _, _⟩ := hchunkAll t.2 t.1 (hcbound t ht)
      have hfre : (Processor.Encrypt deflate (sealK K) parity
          (nonces t.1) t.2).toOption.getD [] = v := by
        rw [h1]
        rfl
      show (Processor.Decrypt inflate (openK K)
        ((Processor.Encrypt deflate (sealK K) parity
          (nonces t.1) t.2).toOption.getD [])).toOption.getD [] = t.2
      rw [hfre, h2]
      rfl
    rw [List.map_congr_left hpt]
    rw [hpairs]
    exact zip_map_snd _ _ (by simp)
  refine ⟨frames, hencStream, ?_⟩
  show decryptStream inflate (openK K) (frameChunks frames) = .ok P
  rw [decryptStream, hread]
  show (match frames.mapM (Processor.Decrypt inflate (openK K)) with
    | .error e => Except.error e
    | .ok outs => Except.ok outs.flatten) = .ok P
  rw [hmapM]
  show Except.ok (frames.map (fun fr =>
    (Processor.Decrypt inflate (openK K) fr).toOption.getD [])).flatten = .ok P
  rw [hback, hchunks, chunkify_flatten DefaultChunkSize (by norm_num [DefaultChunkSize]) P]

/-- Claim C1 witness: the round trip instantiated at the 32-byte zero key,
the plaintext `[1, 2, 3]`, and total stand-ins for the gzip, GCM and parity
primitives satisfying the library contracts. -/
theorem processor_roundtrip_witness :
    (∀ (chunk : List Byte) (i : Nat), chunk.length ≤ MaxDecompressionSize →
      ∃ v, Processor.Encrypt (fun x => 0 :: x)
          ((fun _ _ p => p ++ List.replicate 16 0) (List.replicate 32 0))
          zeroParity ((fun _ => List.replicate 12 0) i) chunk = .ok v ∧
        Processor.Decrypt (fun x => some (x.drop 1))
          ((fun _ _ c => some (c.take (c.length - 16))) (List.replicate 32 0))
          v = .ok chunk) ∧
    ∃ frames, encryptStream (fun x => 0 :: x)
        ((fun _ _ p => p ++ List.replicate 16 0) (List.replicate 32 0))
        zeroParity (fun _ => List.replicate 12 0) [1, 2, 3] = .ok frames ∧
      decryptStream (fun x => some (x.drop 1))
        ((fun _ _ c => some (c.take (c.length - 16))) (List.replicate 32 0))
        (frameChunks frames) = .ok [1, 2, 3] :=
  processor_roundtrip (List.replicate 32 0)
    (fun _ _ p => p ++ List.replicate 16 0)
    (fun _ _ c => some (c.take (c.length - 16)))
    (fun x => 0 :: x) (fun x => some (x.drop 1))
    zeroParity (fun _ => List.replicate 12 0) [1, 2, 3]
    (by simp)
    (fun x => by simp)
    (fun x hx => by simp)
    (fun x => by simp; omega)
    (fun nn p => by simp [GCMTagSize])
    (fun nn p => by
      have hl : (p ++ List.replicate 16 (0 : Byte)).length - 16 = p.length := by
        simp
      show some ((p ++ List.replicate 16 (0 : Byte)).take
        ((p ++ List.replicate 16 (0 : Byte)).length - 16)) = some p
      rw [hl, List.take_left])
    zeroParity_spec
    (fun i => by simp [GCMNonceSize])
    (by norm_num)

end Hexwarden
